import Mathlib

/-!
# Verification of the patchy binary-diff core (src/patchy.rs, src/hash.rs)

Shallow embedding of the delta-computation engine of the `patchy` repository:
the rolling weak hash, the sliding-window matcher (`compute_diff`), block
partitioning (`compute_blocks`), patch construction (`build_patch`) with the
adjacency-merge optimization (`optimize_copy_cmds`), and patch application
(`apply_patch`).

Modelling conventions:
* Byte sequences are `List Nat` (`Bytes`); the Rust subslice `input[a..b]`
  is `bslice input a (b - a)`.
* All machine integers (`u8`, `u16`, `u32`, `u64`, `usize`) are `Nat`.
  Wrapping arithmetic in the rolling hash (`wrapping_add` / `wrapping_sub`
  on `u8`/`u16`) is embedded with explicit `% 256` / `% 65536`; the
  offset/size arithmetic of the command lists is embedded on `Nat`
  (sizes and offsets are bounded by the in-memory input lengths).
* The strong hash is blake3 truncated to 128 bits in the source; the
  program treats it as an opaque collision-resistant digest used only for
  equality and map membership.  It is embedded as the identity on byte
  strings (the standard collision-free idealization).
* The weak (rolling) hash is embedded exactly, bit for bit.
* Rust `HashMap`/`HashSet` are embedded as association lists.  `insert`
  overwrites, which the list model renders by prepending (lookup finds the
  most recent binding first); `contains` is list membership.
* The scan loop of `compute_diff` is embedded with an explicit iteration
  budget (`fuel`).  The loop variable `window_end` always equals
  `window_begin + rolling_hash.count` in the source (both are advanced in
  lockstep by `add`/`sub`/reset), so the embedding carries only
  `window_begin` and the rolling-hash state and recomputes `window_end`.
  The budget `|input| + 1` is sufficient because `window_begin` strictly
  increases each iteration; the fuel-stability theorem below proves the
  result is independent of any sufficient budget.
-/

set_option maxHeartbeats 1000000

abbrev Bytes := List Nat

/-- The Rust subslice `l[off .. off + len]` (clamped at the end of the list). -/
def bslice (l : Bytes) (off len : Nat) : Bytes :=
  (l.drop off).take len

/-- `RollingHash` from src/hash.rs: two 16-bit accumulators and a window
length counter. -/
structure RollingHash where
  a : Nat
  b : Nat
  count : Nat
deriving DecidableEq, Repr

/-- `RollingHash::new()`. -/
def RollingHash.new : RollingHash := ⟨0, 0, 0⟩

/-- `RollingHash::add`: `a += (x +₈ 31); b += a; count += 1`, wrapping at
8 bits for the byte offset and 16 bits for the accumulators. -/
def RollingHash.add (h : RollingHash) (x : Nat) : RollingHash :=
  let y := (x + 31) % 256
  let a := (h.a + y) % 65536
  ⟨a, (h.b + a) % 65536, h.count + 1⟩

/-- `RollingHash::sub`: `a -= (x +₈ 31); b -= count * (x +₈ 31); count -= 1`,
wrapping at 16 bits (`u16::wrapping_sub a v = (a + 2^16 - v) % 2^16`). -/
def RollingHash.sub (h : RollingHash) (x : Nat) : RollingHash :=
  let y := (x + 31) % 256
  ⟨(h.a + 65536 - y) % 65536,
   (h.b + 65536 - (h.count * y) % 65536) % 65536,
   h.count - 1⟩

/-- `RollingHash::get()`: `a | (b << 16)`. -/
def RollingHash.get (h : RollingHash) : Nat :=
  h.a ||| (h.b <<< 16)

/-- `RollingHash::update`: add every byte of the input. -/
def RollingHash.update (h : RollingHash) (input : Bytes) : RollingHash :=
  input.foldl RollingHash.add h

/-- `compute_hash_weak` from src/hash.rs. -/
def compute_hash_weak (input : Bytes) : Nat :=
  (RollingHash.new.update input).get

/-- `compute_hash_strong` from src/hash.rs: blake3 truncated to 128 bits,
embedded as the identity on byte strings (collision-free idealization; the
program uses the digest only for equality and map membership). -/
def compute_hash_strong (input : Bytes) : Bytes := input

/-- `Block` from src/patchy.rs. -/
structure Block where
  offset : Nat
  size : Nat
  hash_weak : Nat
  hash_strong : Bytes
deriving DecidableEq, Repr

/-- `div_up` from src/patchy.rs. -/
def div_up (num den : Nat) : Nat := (num + den - 1) / den

/-- `compute_blocks` from src/patchy.rs: partition the input into
`div_up |input| block_size` consecutive blocks, the last possibly short. -/
def compute_blocks (input : Bytes) (block_size : Nat) : List Block :=
  (List.range (div_up input.length block_size)).map fun i =>
    let block_begin := i * block_size
    let block_end := min ((i + 1) * block_size) input.length
    { offset := block_begin
      size := block_end - block_begin
      hash_weak := compute_hash_weak (bslice input block_begin (block_end - block_begin))
      hash_strong := compute_hash_strong (bslice input block_begin (block_end - block_begin)) }

/-- `CopyCmd` from src/patchy.rs. -/
structure CopyCmd where
  source : Nat
  target : Nat
  size : Nat
deriving DecidableEq, Repr

/-- `PatchCommands` from src/patchy.rs. -/
structure PatchCommands where
  base : List CopyCmd
  other : List CopyCmd
deriving DecidableEq, Repr

/-- Association-list lookup, embedding `HashMap::get` /
`HashMap::contains_key` (the head of the list is the most recent insert). -/
def mapLookup (m : List (Bytes × Nat)) (k : Bytes) : Option Nat :=
  (m.find? fun p => p.1 == k).map Prod.snd

/-- Embeds the `base_block_hash_map.insert` calls of the scan: the trace of
inserts, oldest first, is folded into an association list by prepending, so
that a later insert with the same key overwrites an earlier one. -/
def mkBaseMap (trace : List (Bytes × Nat)) : List (Bytes × Nat) :=
  trace.foldl (fun m p => p :: m) []

/-- The `while rolling_hash.count() < this_window_size` growth loop of
`compute_diff`, unrolled `k` times: add `input[we]`, advance `we`. -/
def growWindowAux (input : Bytes) : RollingHash → Nat → Nat → RollingHash × Nat
  | h, we, 0 => (h, we)
  | h, we, k + 1 => growWindowAux input (h.add (input.getD we 0)) (we + 1) k

/-- The growth loop runs exactly `target - count` iterations (each `add`
increases `count` by one). -/
def growWindow (input : Bytes) (h : RollingHash) (we target : Nat) : RollingHash × Nat :=
  growWindowAux input h we (target - h.count)

/-- The scan loop of `compute_diff` (src/patchy.rs lines 99-124), returning
the sequence of `(strong_hash, window_begin)` pairs inserted into
`base_block_hash_map`, in insertion order.  `ws` is the weak-hash set and
`keys` the strong-hash key set built from the OTHER block list.  The fuel
argument bounds the number of iterations; `|input| + 1` always suffices
(see the fuel-stability theorem). -/
def scanGo (input : Bytes) (ws : List Nat) (keys : List Bytes) (bs : Nat) :
    Nat → RollingHash → Nat → List (Bytes × Nat) → List (Bytes × Nat)
  | 0, _, _, acc => acc
  | fuel + 1, rh, wb, acc =>
    if input.length ≤ wb then acc
    else
      let thisWin := min (input.length - wb) bs
      let g := growWindow input rh (wb + rh.count) thisWin
      let strong := compute_hash_strong (bslice input wb (g.2 - wb))
      if ws.contains g.1.get && keys.contains strong then
        scanGo input ws keys bs fuel RollingHash.new g.2 (acc ++ [(strong, wb)])
      else
        scanGo input ws keys bs fuel (g.1.sub (input.getD wb 0)) (wb + 1) acc

/-- Full scan, from `window_begin = 0` with an empty rolling hash. -/
def scanTrace (input : Bytes) (ws : List Nat) (keys : List Bytes) (bs : Nat) :
    List (Bytes × Nat) :=
  scanGo input ws keys bs (input.length + 1) RollingHash.new 0 []

/-- The finalization loop of `compute_diff` (lines 125-143): each OTHER
block becomes a base copy command when its strong hash is in the match map,
and an OTHER copy command (source = target = block offset) otherwise. -/
def finalizeCmds (baseMap : List (Bytes × Nat)) : List Block → PatchCommands
  | [] => ⟨[], []⟩
  | ob :: rest =>
    let pc := finalizeCmds baseMap rest
    match mapLookup baseMap ob.hash_strong with
    | some off => ⟨⟨off, ob.offset, ob.size⟩ :: pc.base, pc.other⟩
    | none => ⟨pc.base, ⟨ob.offset, ob.offset, ob.size⟩ :: pc.other⟩

/-- `compute_diff` from src/patchy.rs. -/
def compute_diff (input : Bytes) (other_blocks : List Block) (block_size : Nat) :
    PatchCommands :=
  let ws := other_blocks.map Block.hash_weak
  let keys := other_blocks.map Block.hash_strong
  finalizeCmds (mkBaseMap (scanTrace input ws keys block_size)) other_blocks

/-- Sort key of `optimize_copy_cmds`: `cmds.sort_by_key(|v| v.target)`. -/
def cmdLE (a b : CopyCmd) : Prop := a.target ≤ b.target

instance : DecidableRel cmdLE := fun a b => Nat.decLe a.target b.target

instance : IsTotal CopyCmd cmdLE := ⟨fun a b => Nat.le_total a.target b.target⟩

instance : IsTrans CopyCmd cmdLE := ⟨fun _ _ _ h h' => Nat.le_trans h h'⟩

/-- `Vec::sort_by_key(|v| v.target)` is a stable sort by target; insertion
sort is stable, hence extensionally the same function. -/
def sortByTarget (cmds : List CopyCmd) : List CopyCmd :=
  List.insertionSort cmdLE cmds

/-- The look-behind merge loop of `optimize_copy_cmds` (lines 157-170):
`prev` is the previously processed element (already holding its final
value); when `prev` and `curr` are contiguous in both source and target,
`curr` absorbs `prev` (taking its source/target and accumulating the size)
and `prev` is tombstoned with size 0. -/
def mergeLoop : CopyCmd → List CopyCmd → List CopyCmd
  | prev, [] => [prev]
  | prev, curr :: rest =>
    if prev.source + prev.size = curr.source ∧ prev.target + prev.size = curr.target then
      ⟨prev.source, prev.target, 0⟩ ::
        mergeLoop ⟨prev.source, prev.target, curr.size + prev.size⟩ rest
    else
      prev :: mergeLoop curr rest

/-- The merge pass over the whole vector (`prev` starts as `None`; the first
element is processed without a merge check). -/
def mergePass : List CopyCmd → List CopyCmd
  | [] => []
  | c :: rest => mergeLoop c rest

/-- `optimize_copy_cmds` from src/patchy.rs: sort by target, merge adjacent
commands, drop the size-0 tombstones (`retain`). -/
def optimize_copy_cmds (cmds : List CopyCmd) : List CopyCmd :=
  (mergePass (sortByTarget cmds)).filter fun c => c.size != 0

/-- `Patch` from src/patchy.rs. -/
structure Patch where
  data : Bytes
  base : List CopyCmd
  other : List CopyCmd
  other_size : Nat
deriving DecidableEq, Repr

/-- `build_patch` from src/patchy.rs: materialize the payload from the
OTHER-sourced commands (rewriting each source to its position in the
payload), clone the base commands, and optimize both lists. -/
def build_patch (other_data : Bytes) (patch_commands : PatchCommands) : Patch :=
  let pr := patch_commands.other.foldl
    (fun (acc : Bytes × List CopyCmd) cmd =>
      (acc.1 ++ bslice other_data cmd.source cmd.size,
       acc.2 ++ [⟨acc.1.length, cmd.target, cmd.size⟩]))
    ([], [])
  { data := pr.1
    base := optimize_copy_cmds patch_commands.base
    other := optimize_copy_cmds pr.2
    other_size := other_data.length }

/-- `result[target .. target + |src|].copy_from_slice(src)`. -/
def writeSlice (dst : Bytes) (target : Nat) (src : Bytes) : Bytes :=
  dst.take target ++ src ++ dst.drop (target + src.length)

/-- `apply_patch` from src/patchy.rs: allocate a zeroed buffer of length
`other_size`, then execute the base commands (copying from the base data)
and the other commands (copying from the payload). -/
def apply_patch (base_data : Bytes) (patch : Patch) : Bytes :=
  let r0 := List.replicate patch.other_size 0
  let r1 := patch.base.foldl
    (fun r c => writeSlice r c.target (bslice base_data c.source c.size)) r0
  patch.other.foldl
    (fun r c => writeSlice r c.target (bslice patch.data c.source c.size)) r1

/-! ## Basic facts about byte slices -/

theorem bslice_length (l : Bytes) (off len : Nat) (h : off + len ≤ l.length) :
    (bslice l off len).length = len := by
  simp only [bslice, List.length_take, List.length_drop]
  omega

theorem bslice_getD (l : Bytes) (off len j : Nat) (hj : j < len)
    (h : off + len ≤ l.length) :
    (bslice l off len).getD j 0 = l.getD (off + j) 0 := by
  simp only [bslice, List.getD_eq_getElem?_getD, List.getElem?_take, hj, if_pos,
    List.getElem?_drop]

theorem bslice_add (l : Bytes) (off m n : Nat) :
    bslice l off (m + n) = bslice l off m ++ bslice l (off + m) n := by
  simp only [bslice, List.take_add, List.drop_drop]

theorem bslice_append_left (l1 l2 : Bytes) (off n : Nat) (h : off + n ≤ l1.length) :
    bslice (l1 ++ l2) off n = bslice l1 off n := by
  have h1 : off ≤ l1.length := by omega
  have h2 : n ≤ (List.drop off l1).length := by
    simp only [List.length_drop]; omega
  simp only [bslice, List.drop_append_of_le_length h1, List.take_append_of_le_length h2]

theorem bslice_append_exact (l1 l2 : Bytes) :
    bslice (l1 ++ l2) l1.length l2.length = l2 := by
  simp only [bslice, List.drop_left, List.take_length]

theorem bslice_zero (l : Bytes) (off : Nat) : bslice l off 0 = [] := by
  simp [bslice]

/-! ## The window-growth loop -/

theorem growWindowAux_snd (input : Bytes) :
    ∀ (k : Nat) (h : RollingHash) (we : Nat),
      (growWindowAux input h we k).2 = we + k := by
  intro k
  induction k with
  | zero => intro h we; simp [growWindowAux]
  | succ n ih =>
    intro h we
    simp only [growWindowAux, ih]
    omega

theorem growWindowAux_count (input : Bytes) :
    ∀ (k : Nat) (h : RollingHash) (we : Nat),
      (growWindowAux input h we k).1.count = h.count + k := by
  intro k
  induction k with
  | zero => intro h we; simp [growWindowAux]
  | succ n ih =>
    intro h we
    simp only [growWindowAux, ih, RollingHash.add]
    omega

/-- The growth loop visits exactly the bytes `input[we .. we + k]`: starting
from state `h` it performs the same `add` calls as `RollingHash.update` on
that slice. -/
theorem growWindowAux_eq_update (input : Bytes) :
    ∀ (k : Nat) (h : RollingHash) (we : Nat), we + k ≤ input.length →
      (growWindowAux input h we k).1 = h.update (bslice input we k) := by
  intro k
  induction k with
  | zero => intro h we _; simp [growWindowAux, RollingHash.update, bslice_zero]
  | succ n ih =>
    intro h we hle
    have hhead : bslice input we (n + 1) = input.getD we 0 :: bslice input (we + 1) n := by
      have h1 := bslice_add input we 1 n
      rw [Nat.add_comm 1 n] at h1
      have h2 : bslice input we 1 = [input.getD we 0] := by
        have h3 : (bslice input we 1).length = 1 := bslice_length _ _ _ (by omega)
        obtain ⟨x, hx⟩ := List.length_eq_one.1 h3
        have h4 := bslice_getD input we 1 0 (by omega) (by omega)
        rw [hx] at h4 ⊢
        simp only [List.getD_cons_zero, Nat.add_zero] at h4
        rw [h4]
      rw [h1, h2]; rfl
    simp only [growWindowAux, hhead, RollingHash.update, List.foldl_cons]
    exact ih _ _ (by omega)

theorem growWindow_snd (input : Bytes) (h : RollingHash) (we target : Nat) :
    (growWindow input h we target).2 = we + (target - h.count) := by
  simp [growWindow, growWindowAux_snd]

theorem growWindow_count (input : Bytes) (h : RollingHash) (we target : Nat) :
    (growWindow input h we target).1.count = h.count + (target - h.count) := by
  simp [growWindow, growWindowAux_count]

/-! ## Facts about the scan loop -/

/-- The scan only appends to its accumulator. -/
theorem scanGo_acc (input : Bytes) (ws : List Nat) (keys : List Bytes) (bs : Nat) :
    ∀ (fuel : Nat) (rh : RollingHash) (wb : Nat) (acc : List (Bytes × Nat)),
      ∃ rest, scanGo input ws keys bs fuel rh wb acc = acc ++ rest := by
  intro fuel
  induction fuel with
  | zero => intro rh wb acc; exact ⟨[], by simp [scanGo]⟩
  | succ n ih =>
    intro rh wb acc
    by_cases hend : input.length ≤ wb
    · exact ⟨[], by simp [scanGo, hend]⟩
    · simp only [scanGo, if_neg hend]
      by_cases hc : (ws.contains (growWindow input rh (wb + rh.count)
            (min (input.length - wb) bs)).1.get
          && keys.contains (compute_hash_strong (bslice input wb
            ((growWindow input rh (wb + rh.count) (min (input.length - wb) bs)).2 - wb))))
          = true
      · rw [if_pos hc]
        obtain ⟨rest, hrest⟩ := ih RollingHash.new
          (growWindow input rh (wb + rh.count) (min (input.length - wb) bs)).2
          (acc ++ [(compute_hash_strong (bslice input wb
            ((growWindow input rh (wb + rh.count) (min (input.length - wb) bs)).2 - wb)), wb)])
        exact ⟨_, by rw [hrest, List.append_assoc]⟩
      · rw [if_neg hc]
        exact ih _ _ acc

/-- Every pair recorded by the scan is a confirmed window: its key is the
contents of `input` at the recorded offset, and the window lies inside
`input`. -/
theorem scanGo_valid (input : Bytes) (ws : List Nat) (keys : List Bytes) (bs : Nat) :
    ∀ (fuel : Nat) (rh : RollingHash) (wb : Nat) (acc : List (Bytes × Nat)),
      rh.count ≤ input.length - wb →
      (∀ e ∈ acc, e.1 = bslice input e.2 e.1.length ∧ e.2 + e.1.length ≤ input.length) →
      ∀ e ∈ scanGo input ws keys bs fuel rh wb acc,
        e.1 = bslice input e.2 e.1.length ∧ e.2 + e.1.length ≤ input.length := by
  intro fuel
  induction fuel with
  | zero => intro rh wb acc _ hacc; simpa [scanGo] using hacc
  | succ n ih =>
    intro rh wb acc hcount hacc
    by_cases hend : input.length ≤ wb
    · simpa [scanGo, hend] using hacc
    · simp only [scanGo, if_neg hend]
      set thisWin := min (input.length - wb) bs with hthis
      set g := growWindow input rh (wb + rh.count) thisWin with hg
      have hg2 : g.2 = wb + rh.count + (thisWin - rh.count) := growWindow_snd ..
      have hg1c : g.1.count = rh.count + (thisWin - rh.count) := growWindow_count ..
      have hwin : thisWin ≤ input.length - wb := by omega
      have hg2le : g.2 ≤ input.length := by omega
      have hg2ge : wb ≤ g.2 := by omega
      by_cases hc : (ws.contains g.1.get
          && keys.contains (compute_hash_strong (bslice input wb (g.2 - wb)))) = true
      · rw [if_pos hc]
        refine ih RollingHash.new g.2 _ (by simp [RollingHash.new]) ?_
        intro e he
        rcases List.mem_append.1 he with he | he
        · exact hacc e he
        · have he' : e = (compute_hash_strong (bslice input wb (g.2 - wb)), wb) := by
            simpa using he
          subst he'
          have hlen : (bslice input wb (g.2 - wb)).length = g.2 - wb :=
            bslice_length _ _ _ (by omega)
          constructor
          · simp only [compute_hash_strong, hlen]
          · simp only [compute_hash_strong, hlen]; omega
      · rw [if_neg hc]
        refine ih _ _ _ ?_ hacc
        simp only [RollingHash.sub, hg1c]
        omega

/-- Fuel stability of the scan: once the budget exceeds the number of bytes
left of the window start, the result no longer depends on it.  This is the
termination argument of the scan: every iteration either jumps
`window_begin` to `window_end` (at least one byte forward, since the window
is non-empty while bytes remain) or slides it forward by one, so at most
`|input| - window_begin + 1` iterations run. -/
theorem scanGo_fuel (input : Bytes) (ws : List Nat) (keys : List Bytes) (bs : Nat)
    (hbs : 1 ≤ bs) :
    ∀ (fuel1 fuel2 : Nat) (rh : RollingHash) (wb : Nat) (acc : List (Bytes × Nat)),
      input.length - wb < fuel1 → input.length - wb < fuel2 →
      scanGo input ws keys bs fuel1 rh wb acc = scanGo input ws keys bs fuel2 rh wb acc := by
  intro fuel1
  induction fuel1 with
  | zero => intro fuel2 rh wb acc h1 _; omega
  | succ n ih =>
    intro fuel2 rh wb acc h1 h2
    match fuel2, h2 with
    | m + 1, h2 =>
      by_cases hend : input.length ≤ wb
      · simp [scanGo, hend]
      · simp only [scanGo, if_neg hend]
        set thisWin := min (input.length - wb) bs with hthis
        set g := growWindow input rh (wb + rh.count) thisWin with hg
        have hg2 : g.2 = wb + rh.count + (thisWin - rh.count) := growWindow_snd ..
        have hwin1 : 1 ≤ thisWin := by omega
        have hjump : wb + 1 ≤ g.2 := by omega
        by_cases hc : (ws.contains g.1.get
            && keys.contains (compute_hash_strong (bslice input wb (g.2 - wb)))) = true
        · rw [if_pos hc, if_pos hc]
          exact ih m RollingHash.new g.2 _ (by omega) (by omega)
        · rw [if_neg hc, if_neg hc]
          exact ih m _ (wb + 1) acc (by omega) (by omega)

/-! ## Rolling-hash add/sub cancellation (WeakHash algebra) -/

/-- The biased byte value `(x +₈ 31)` fed into the accumulators. -/
def biasedByte (x : Nat) : Nat := (x + 31) % 256

/-- Unreduced first accumulator of a window (oldest byte first). -/
def accA (w : Bytes) : Nat := (w.map biasedByte).sum

/-- Unreduced second accumulator of a window: the oldest byte is counted
once per position it has been present for, i.e. with weight `|w|`. -/
def accB : Bytes → Nat
  | [] => 0
  | x :: w => (w.length + 1) * biasedByte x + accB w

/-- The rolling-hash state that corresponds to window contents `w`. -/
def RhInv (w : Bytes) (s : RollingHash) : Prop :=
  s.count = w.length ∧ s.a < 65536 ∧ s.b < 65536 ∧
    s.a ≡ accA w [MOD 65536] ∧ s.b ≡ accB w [MOD 65536]

theorem accA_append_singleton (w : Bytes) (x : Nat) :
    accA (w ++ [x]) = accA w + biasedByte x := by
  simp [accA]

theorem accB_append_singleton (w : Bytes) (x : Nat) :
    accB (w ++ [x]) = accB w + accA w + biasedByte x := by
  induction w with
  | nil => simp [accA, accB]
  | cons z w ih =>
    have h1 : accB ((z :: w) ++ [x])
        = ((w ++ [x]).length + 1) * biasedByte z + accB (w ++ [x]) := rfl
    have h2 : accB (z :: w) = (w.length + 1) * biasedByte z + accB w := rfl
    have h3 : accA (z :: w) = biasedByte z + accA w := by simp [accA]
    have h4 : (w ++ [x]).length = w.length + 1 := by simp
    rw [h1, ih, h2, h3, h4]
    ring

theorem rhInv_new : RhInv [] RollingHash.new :=
  ⟨rfl, by decide, by decide, rfl, rfl⟩

theorem rhInv_add {w : Bytes} {s : RollingHash} (hs : RhInv w s) (x : Nat) :
    RhInv (w ++ [x]) (s.add x) := by
  obtain ⟨hc, ha, hb, hA, hB⟩ := hs
  have hy : biasedByte x < 256 := Nat.mod_lt _ (by norm_num)
  have hA' : (s.a + biasedByte x) % 65536 ≡ accA (w ++ [x]) [MOD 65536] := by
    rw [accA_append_singleton]
    exact (Nat.mod_modEq _ _).trans (hA.add_right _)
  refine ⟨by simp [RollingHash.add, biasedByte, hc], Nat.mod_lt _ (by norm_num),
    Nat.mod_lt _ (by norm_num), ?_, ?_⟩
  · simpa [RollingHash.add, biasedByte] using hA'
  · have : (s.b + (s.a + biasedByte x) % 65536) % 65536 ≡ accB (w ++ [x]) [MOD 65536] := by
      rw [accB_append_singleton]
      calc (s.b + (s.a + biasedByte x) % 65536) % 65536
          ≡ s.b + (s.a + biasedByte x) % 65536 [MOD 65536] := Nat.mod_modEq _ _
        _ ≡ accB w + (accA w + biasedByte x) [MOD 65536] := by
            exact Nat.ModEq.add hB (hA'.trans (by rw [accA_append_singleton]))
        _ = accB w + accA w + biasedByte x := by ring
    simpa [RollingHash.add, biasedByte] using this

theorem rhInv_sub {w : Bytes} {x : Nat} {s : RollingHash} (hs : RhInv (x :: w) s) :
    RhInv w (s.sub x) := by
  obtain ⟨hc, ha, hb, hA, hB⟩ := hs
  have hy : biasedByte x < 256 := Nat.mod_lt _ (by norm_num)
  have hcount : s.count = w.length + 1 := by simpa using hc
  have hAx : accA (x :: w) = biasedByte x + accA w := by simp [accA]
  have hBx : accB (x :: w) = (w.length + 1) * biasedByte x + accB w := rfl
  refine ⟨by simp [RollingHash.sub, biasedByte, hcount], Nat.mod_lt _ (by norm_num),
    Nat.mod_lt _ (by norm_num), ?_, ?_⟩
  · have key : (s.a + 65536 - biasedByte x) + biasedByte x ≡ accA w + biasedByte x
        [MOD 65536] := by
      have h1 : (s.a + 65536 - biasedByte x) + biasedByte x = s.a + 65536 := by omega
      rw [h1]
      calc s.a + 65536 ≡ s.a + 0 [MOD 65536] :=
            Nat.ModEq.add_left _ (Nat.modEq_zero_iff_dvd.2 ⟨1, by norm_num⟩)
        _ = s.a := by omega
        _ ≡ accA (x :: w) [MOD 65536] := hA
        _ = accA w + biasedByte x := by rw [hAx]; ring
    have := Nat.ModEq.add_right_cancel' _ key
    simpa [RollingHash.sub, biasedByte] using (Nat.mod_modEq _ 65536).trans this
  · have hvlt : (s.count * biasedByte x) % 65536 ≤ 65536 :=
      Nat.le_of_lt (Nat.mod_lt _ (by norm_num))
    have key : (s.b + 65536 - (s.count * biasedByte x) % 65536)
          + (s.count * biasedByte x) % 65536
        ≡ accB w + (s.count * biasedByte x) % 65536 [MOD 65536] := by
      have h1 : (s.b + 65536 - (s.count * biasedByte x) % 65536)
          + (s.count * biasedByte x) % 65536 = s.b + 65536 := by omega
      rw [h1]
      calc s.b + 65536 ≡ s.b + 0 [MOD 65536] :=
            Nat.ModEq.add_left _ (Nat.modEq_zero_iff_dvd.2 ⟨1, by norm_num⟩)
        _ = s.b := by omega
        _ ≡ accB (x :: w) [MOD 65536] := hB
        _ = accB w + s.count * biasedByte x := by rw [hBx, hcount]; ring
        _ ≡ accB w + (s.count * biasedByte x) % 65536 [MOD 65536] :=
            Nat.ModEq.add_left _ (Nat.mod_modEq _ _).symm
    have := Nat.ModEq.add_right_cancel' _ key
    simpa [RollingHash.sub, biasedByte] using (Nat.mod_modEq _ 65536).trans this

theorem rhInv_foldl_add {xs : Bytes} :
    ∀ {w : Bytes} {s : RollingHash}, RhInv w s →
      RhInv (w ++ xs) (xs.foldl RollingHash.add s) := by
  induction xs with
  | nil => intro w s hs; simpa using hs
  | cons x xs ih =>
    intro w s hs
    have := ih (rhInv_add hs x)
    simpa [List.append_assoc] using this

theorem rhInv_foldl_sub {xs : Bytes} :
    ∀ {w : Bytes} {s : RollingHash}, RhInv (xs ++ w) s →
      RhInv w (xs.foldl RollingHash.sub s) := by
  induction xs with
  | nil => intro w s hs; simpa using hs
  | cons x xs ih =>
    intro w s hs
    exact ih (rhInv_sub (by simpa using hs))

theorem rhInv_nil_eq_new {s : RollingHash} (hs : RhInv [] s) : s = RollingHash.new := by
  obtain ⟨hc, ha, hb, hA, hB⟩ := hs
  have hA0 : s.a % 65536 = 0 := by simpa [accA, Nat.ModEq] using hA
  have hB0 : s.b % 65536 = 0 := by simpa [accB, Nat.ModEq] using hB
  have : s.a = 0 := by rw [← Nat.mod_eq_of_lt ha, hA0]
  have : s.b = 0 := by rw [← Nat.mod_eq_of_lt hb, hB0]
  cases s
  simp_all [RollingHash.new]

/-! ## Command correctness and the adjacency-merge pass -/

/-- A copy command is coherent relative to a source buffer and the intended
reconstruction: it stays in bounds on both sides and copies exactly the
bytes the reconstruction wants at its target range. -/
def CmdOk (src dst : Bytes) (c : CopyCmd) : Prop :=
  c.source + c.size ≤ src.length ∧ c.target + c.size ≤ dst.length ∧
    bslice src c.source c.size = bslice dst c.target c.size

/-- `pos` lies in the target range of `c`. -/
def coversT (pos : Nat) (c : CopyCmd) : Bool :=
  decide (c.target ≤ pos ∧ pos < c.target + c.size)

/-- `pos` lies in the source range of `c`. -/
def coversS (pos : Nat) (c : CopyCmd) : Bool :=
  decide (c.source ≤ pos ∧ pos < c.source + c.size)

@[simp] theorem CopyCmd.mk_source (s t z : Nat) : (CopyCmd.mk s t z).source = s := rfl

@[simp] theorem CopyCmd.mk_target (s t z : Nat) : (CopyCmd.mk s t z).target = t := rfl

@[simp] theorem CopyCmd.mk_size (s t z : Nat) : (CopyCmd.mk s t z).size = z := rfl

theorem mergeLoop_mem_ok (src dst : Bytes) :
    ∀ (l : List CopyCmd) (prev : CopyCmd), CmdOk src dst prev →
      (∀ c ∈ l, CmdOk src dst c) →
      ∀ c ∈ mergeLoop prev l, CmdOk src dst c := by
  intro l
  induction l with
  | nil =>
    intro prev hprev _ c hc
    simp only [mergeLoop, List.mem_singleton] at hc
    subst hc; exact hprev
  | cons curr rest ih =>
    intro prev hprev hl c hc
    have hcurr : CmdOk src dst curr := hl curr (by simp)
    have hrest : ∀ c ∈ rest, CmdOk src dst c := fun c hc => hl c (by simp [hc])
    obtain ⟨hp1, hp2, hp3⟩ := hprev
    obtain ⟨hc1, hc2, hc3⟩ := hcurr
    simp only [mergeLoop] at hc
    split_ifs at hc with hadj
    · obtain ⟨hadj1, hadj2⟩ := hadj
      rcases List.mem_cons.1 hc with hc | hc
      · subst hc
        refine ⟨?_, ?_, ?_⟩
        · show prev.source + 0 ≤ src.length
          omega
        · show prev.target + 0 ≤ dst.length
          omega
        · show bslice src prev.source 0 = bslice dst prev.target 0
          simp [bslice_zero]
      · refine ih _ ?_ hrest c hc
        refine ⟨?_, ?_, ?_⟩
        · show prev.source + (curr.size + prev.size) ≤ src.length
          omega
        · show prev.target + (curr.size + prev.size) ≤ dst.length
          omega
        · show bslice src prev.source (curr.size + prev.size)
            = bslice dst prev.target (curr.size + prev.size)
          have e1 : curr.size + prev.size = prev.size + curr.size := by omega
          calc bslice src prev.source (curr.size + prev.size)
              = bslice src prev.source prev.size
                ++ bslice src (prev.source + prev.size) curr.size := by
                rw [e1, bslice_add]
            _ = bslice dst prev.target prev.size
                ++ bslice dst (prev.target + prev.size) curr.size := by
                rw [hp3, hadj1, hc3, hadj2]
            _ = bslice dst prev.target (curr.size + prev.size) := by
                rw [e1, bslice_add]
    · rcases List.mem_cons.1 hc with hc | hc
      · subst hc; exact ⟨hp1, hp2, hp3⟩
      · exact ih _ ⟨hc1, hc2, hc3⟩ hrest c hc

theorem optimize_mem_ok (src dst : Bytes) (cmds : List CopyCmd)
    (h : ∀ c ∈ cmds, CmdOk src dst c) :
    ∀ c ∈ optimize_copy_cmds cmds, CmdOk src dst c := by
  intro c hc
  have hsort : ∀ c ∈ sortByTarget cmds, CmdOk src dst c := by
    intro c hc
    exact h c ((List.perm_insertionSort cmdLE cmds).mem_iff.1 hc)
  have hc' : c ∈ mergePass (sortByTarget cmds) := List.mem_of_mem_filter hc
  match hs : sortByTarget cmds, hsort with
  | [], _ => rw [hs] at hc'; simp [mergePass] at hc'
  | d :: rest, hsort' =>
    rw [hs] at hc'
    exact mergeLoop_mem_ok src dst rest d (hsort' d (by simp))
      (fun c hc => hsort' c (by simp [hc])) c hc'

theorem mergeLoop_countP_coversT (pos : Nat) :
    ∀ (l : List CopyCmd) (prev : CopyCmd),
      (mergeLoop prev l).countP (coversT pos) = ((prev :: l).countP (coversT pos)) := by
  intro l
  induction l with
  | nil => intro prev; rfl
  | cons curr rest ih =>
    intro prev
    simp only [mergeLoop]
    split_ifs with hadj
    · obtain ⟨hadj1, hadj2⟩ := hadj
      simp only [List.countP_cons, ih, coversT, decide_eq_true_eq, CopyCmd.mk_target,
        CopyCmd.mk_size]
      split_ifs <;> omega
    · simp only [List.countP_cons, ih]

theorem mergeLoop_countP_coversS (pos : Nat) :
    ∀ (l : List CopyCmd) (prev : CopyCmd),
      (mergeLoop prev l).countP (coversS pos) = ((prev :: l).countP (coversS pos)) := by
  intro l
  induction l with
  | nil => intro prev; rfl
  | cons curr rest ih =>
    intro prev
    simp only [mergeLoop]
    split_ifs with hadj
    · obtain ⟨hadj1, hadj2⟩ := hadj
      simp only [List.countP_cons, ih, coversS, decide_eq_true_eq, CopyCmd.mk_source,
        CopyCmd.mk_size]
      split_ifs <;> omega
    · simp only [List.countP_cons, ih]

theorem optimize_countP_coversT (pos : Nat) (cmds : List CopyCmd) :
    (optimize_copy_cmds cmds).countP (coversT pos) = cmds.countP (coversT pos) := by
  have hfil : (optimize_copy_cmds cmds).countP (coversT pos)
      = (mergePass (sortByTarget cmds)).countP (coversT pos) := by
    rw [optimize_copy_cmds, List.countP_filter]
    refine List.countP_congr fun c _ => ?_
    simp only [Bool.and_eq_true, coversT, decide_eq_true_eq, bne_iff_ne]
    constructor
    · rintro ⟨h, _⟩; exact h
    · intro h; exact ⟨h, by omega⟩
  rw [hfil]
  have hperm := (List.perm_insertionSort cmdLE cmds).countP_eq (coversT pos)
  match hs : sortByTarget cmds with
  | [] =>
    have : cmds.countP (coversT pos) = 0 := by
      rw [← hperm]; rw [sortByTarget] at hs; rw [hs]; rfl
    simp [mergePass, this]
  | d :: rest =>
    rw [mergePass, mergeLoop_countP_coversT, ← hs]
    rw [sortByTarget] at hs ⊢
    exact hperm

theorem optimize_countP_coversS (pos : Nat) (cmds : List CopyCmd) :
    (optimize_copy_cmds cmds).countP (coversS pos) = cmds.countP (coversS pos) := by
  have hfil : (optimize_copy_cmds cmds).countP (coversS pos)
      = (mergePass (sortByTarget cmds)).countP (coversS pos) := by
    rw [optimize_copy_cmds, List.countP_filter]
    refine List.countP_congr fun c _ => ?_
    simp only [Bool.and_eq_true, coversS, decide_eq_true_eq, bne_iff_ne]
    constructor
    · rintro ⟨h, _⟩; exact h
    · intro h; exact ⟨h, by omega⟩
  rw [hfil]
  have hperm := (List.perm_insertionSort cmdLE cmds).countP_eq (coversS pos)
  match hs : sortByTarget cmds with
  | [] =>
    have : cmds.countP (coversS pos) = 0 := by
      rw [← hperm]; rw [sortByTarget] at hs; rw [hs]; rfl
    simp [mergePass, this]
  | d :: rest =>
    rw [mergePass, mergeLoop_countP_coversS, ← hs]
    rw [sortByTarget] at hs ⊢
    exact hperm

/-- Total size carried by a command list. -/
def sizeSum (l : List CopyCmd) : Nat := (l.map CopyCmd.size).sum

theorem sizeSum_cons (c : CopyCmd) (l : List CopyCmd) :
    sizeSum (c :: l) = c.size + sizeSum l := by
  simp [sizeSum]

theorem mergeLoop_sizeSum :
    ∀ (l : List CopyCmd) (prev : CopyCmd),
      sizeSum (mergeLoop prev l) = prev.size + sizeSum l := by
  intro l
  induction l with
  | nil => intro prev; simp [mergeLoop, sizeSum]
  | cons curr rest ih =>
    intro prev
    simp only [mergeLoop]
    split_ifs with hadj
    · rw [sizeSum_cons, ih, sizeSum_cons]
      simp only [CopyCmd.mk_size]
      omega
    · rw [sizeSum_cons, ih, sizeSum_cons]

theorem filter_sizeSum (l : List CopyCmd) :
    sizeSum (l.filter fun c => c.size != 0) = sizeSum l := by
  induction l with
  | nil => rfl
  | cons c rest ih =>
    by_cases hc : c.size = 0
    · simp [sizeSum, List.filter_cons, hc] at ih ⊢
      simpa [hc] using ih
    · simp only [sizeSum, List.filter_cons, List.map_cons, List.sum_cons] at ih ⊢
      rw [if_pos (by simpa using hc)]
      simp only [List.map_cons, List.sum_cons]
      rw [ih]

theorem optimize_sizeSum (cmds : List CopyCmd) :
    sizeSum (optimize_copy_cmds cmds) = sizeSum cmds := by
  rw [optimize_copy_cmds, filter_sizeSum]
  have hperm : sizeSum (sortByTarget cmds) = sizeSum cmds :=
    ((List.perm_insertionSort cmdLE cmds).map CopyCmd.size).sum_eq
  match hs : sortByTarget cmds with
  | [] =>
    have h0 : sizeSum cmds = 0 := by rw [← hperm, hs]; rfl
    show sizeSum [] = sizeSum cmds
    rw [h0]
    rfl
  | d :: rest =>
    show sizeSum (mergeLoop d rest) = sizeSum cmds
    rw [mergeLoop_sizeSum, ← hperm, hs, sizeSum_cons]

/-! ## Idempotence of the adjacency-merge pass -/

/-- Two commands that the merge pass must NOT fold: they are not contiguous
in source and target simultaneously. -/
def NotContig (a b : CopyCmd) : Prop :=
  ¬(a.source + a.size = b.source ∧ a.target + a.size = b.target)

theorem mergeLoop_target_origin :
    ∀ (l : List CopyCmd) (prev : CopyCmd) (c : CopyCmd), c ∈ mergeLoop prev l →
      ∃ d ∈ prev :: l, c.target = d.target := by
  intro l
  induction l with
  | nil =>
    intro prev c hc
    simp only [mergeLoop, List.mem_singleton] at hc
    exact ⟨prev, by simp, by rw [hc]⟩
  | cons curr rest ih =>
    intro prev c hc
    simp only [mergeLoop] at hc
    split_ifs at hc with hadj
    · rcases List.mem_cons.1 hc with hc | hc
      · exact ⟨prev, by simp, by rw [hc]⟩
      · obtain ⟨d, hd, hcd⟩ := ih _ c hc
        rcases List.mem_cons.1 hd with hd | hd
        · exact ⟨prev, by simp, by rw [hcd, hd]⟩
        · exact ⟨d, by simp [hd], hcd⟩
    · rcases List.mem_cons.1 hc with hc | hc
      · exact ⟨prev, by simp, by rw [hc]⟩
      · obtain ⟨d, hd, hcd⟩ := ih _ c hc
        exact ⟨d, by simp [List.mem_cons.1 hd], hcd⟩

theorem mergeLoop_sorted :
    ∀ (l : List CopyCmd) (prev : CopyCmd), List.Sorted cmdLE (prev :: l) →
      List.Sorted cmdLE (mergeLoop prev l) := by
  intro l
  induction l with
  | nil => intro prev _; simp [mergeLoop]
  | cons curr rest ih =>
    intro prev hsort
    rw [List.sorted_cons] at hsort
    obtain ⟨hple, hsort'⟩ := hsort
    rw [List.sorted_cons] at hsort'
    obtain ⟨hcle, hsrest⟩ := hsort'
    simp only [mergeLoop]
    split_ifs with hadj
    · have hmerged : List.Sorted cmdLE
          (CopyCmd.mk prev.source prev.target (curr.size + prev.size) :: rest) := by
        rw [List.sorted_cons]
        refine ⟨fun b hb => ?_, hsrest⟩
        have := hple b (by simp [hb])
        simpa [cmdLE] using this
      have hml := ih _ hmerged
      rw [List.sorted_cons]
      refine ⟨fun b hb => ?_, hml⟩
      obtain ⟨d, hd, hbd⟩ := mergeLoop_target_origin _ _ b hb
      rcases List.mem_cons.1 hd with hd | hd
      · simp [cmdLE, hbd, hd]
      · have := hple d (by simp [hd])
        simpa [cmdLE, hbd] using this
    · have hml := ih _ (by rw [List.sorted_cons]; exact ⟨hcle, hsrest⟩)
      rw [List.sorted_cons]
      refine ⟨fun b hb => ?_, hml⟩
      obtain ⟨d, hd, hbd⟩ := mergeLoop_target_origin _ _ b hb
      rcases List.mem_cons.1 hd with hd | hd
      · rw [hd] at hbd
        simpa [cmdLE, hbd] using hple curr (by simp)
      · simpa [cmdLE, hbd] using hple d (by simp [hd])

/-- After one merge pass over commands of nonzero size, the surviving
commands are pairwise non-contiguous: the head of the filtered output keeps
the source and target of `prev`, and consecutive survivors fail the merge
test.  (The failed test between `prev` and the next original command is
exactly the test between consecutive survivors, because a surviving command
keeps the source and target of the first command of its merged run.) -/
theorem mergeLoop_chain_notContig :
    ∀ (l : List CopyCmd) (prev : CopyCmd), prev.size ≠ 0 → (∀ c ∈ l, c.size ≠ 0) →
      ∃ s tl, (mergeLoop prev l).filter (fun c => c.size != 0)
          = CopyCmd.mk prev.source prev.target s :: tl ∧ s ≠ 0 ∧
        List.Chain' NotContig (CopyCmd.mk prev.source prev.target s :: tl) := by
  intro l
  induction l with
  | nil =>
    intro prev hprev _
    refine ⟨prev.size, [], ?_, hprev, by simp⟩
    simp only [mergeLoop, List.filter_cons]
    rw [if_pos (by simpa using hprev)]
    rfl
  | cons curr rest ih =>
    intro prev hprev hl
    have hcurr : curr.size ≠ 0 := hl curr (by simp)
    have hrest : ∀ c ∈ rest, c.size ≠ 0 := fun c hc => hl c (by simp [hc])
    simp only [mergeLoop]
    split_ifs with hadj
    · obtain ⟨s, tl, heq, hs, hchain⟩ :=
        ih (CopyCmd.mk prev.source prev.target (curr.size + prev.size)) (by simp; omega) hrest
      refine ⟨s, tl, ?_, hs, ?_⟩
      · rw [List.filter_cons, if_neg (by simp)]
        simpa using heq
      · simpa using hchain
    · obtain ⟨s, tl, heq, hs, hchain⟩ := ih curr hcurr hrest
      refine ⟨prev.size, CopyCmd.mk curr.source curr.target s :: tl, ?_, hprev, ?_⟩
      · rw [List.filter_cons, if_pos (by simpa using hprev), heq]
      · rw [List.chain'_cons]
        refine ⟨?_, hchain⟩
        simp only [NotContig, CopyCmd.mk_source, CopyCmd.mk_target, CopyCmd.mk_size]
        simpa [NotContig] using hadj

theorem mergeLoop_of_chain :
    ∀ (l : List CopyCmd) (prev : CopyCmd), List.Chain' NotContig (prev :: l) →
      mergeLoop prev l = prev :: l := by
  intro l
  induction l with
  | nil => intro prev _; rfl
  | cons curr rest ih =>
    intro prev hchain
    rw [List.chain'_cons] at hchain
    obtain ⟨hnc, hchain'⟩ := hchain
    simp only [mergeLoop]
    rw [if_neg hnc, ih _ hchain']

/-- One merge pass makes every surviving pair non-contiguous, and the
output stays sorted by target with only nonzero sizes, so a second pass
(sort, merge, retain) returns its input unchanged. -/
theorem optimize_copy_cmds_idem (cmds : List CopyCmd) (h : ∀ c ∈ cmds, c.size ≠ 0) :
    optimize_copy_cmds (optimize_copy_cmds cmds) = optimize_copy_cmds cmds := by
  have hsortmem : ∀ c ∈ sortByTarget cmds, c.size ≠ 0 := fun c hc =>
    h c ((List.perm_insertionSort cmdLE cmds).mem_iff.1 hc)
  have hsorted : List.Sorted cmdLE (sortByTarget cmds) :=
    List.sorted_insertionSort cmdLE cmds
  match hs : sortByTarget cmds with
  | [] =>
    have h1 : optimize_copy_cmds cmds = [] := by
      rw [optimize_copy_cmds, hs]
      rfl
    rw [h1]
    rfl
  | d :: rest =>
    rw [hs] at hsortmem hsorted
    have hd : d.size ≠ 0 := hsortmem d (by simp)
    have hr : ∀ c ∈ rest, c.size ≠ 0 := fun c hc => hsortmem c (by simp [hc])
    obtain ⟨s, tl, heq, hsnz, hchain⟩ := mergeLoop_chain_notContig rest d hd hr
    have h1 : optimize_copy_cmds cmds = CopyCmd.mk d.source d.target s :: tl := by
      rw [optimize_copy_cmds, hs]
      exact heq
    have hms : List.Sorted cmdLE (mergeLoop d rest) := mergeLoop_sorted rest d hsorted
    have hfs : List.Sorted cmdLE (optimize_copy_cmds cmds) := by
      rw [optimize_copy_cmds, hs]
      exact List.Pairwise.filter _ hms
    have hfnz : ∀ c ∈ optimize_copy_cmds cmds, c.size ≠ 0 := by
      intro c hc
      rw [optimize_copy_cmds, hs] at hc
      have := List.of_mem_filter hc
      simpa using this
    have hfs' : List.Sorted cmdLE (CopyCmd.mk d.source d.target s :: tl) := by
      rw [← h1]; exact hfs
    rw [h1, optimize_copy_cmds, sortByTarget, hfs'.insertionSort_eq]
    show (mergeLoop (CopyCmd.mk d.source d.target s) tl).filter (fun c => c.size != 0)
      = CopyCmd.mk d.source d.target s :: tl
    rw [mergeLoop_of_chain tl _ hchain]
    refine List.filter_eq_self.2 fun c hc => ?_
    rcases List.mem_cons.1 hc with hc | hc
    · subst hc; simpa using hsnz
    · have hc' : c ∈ (mergeLoop d rest).filter (fun c => c.size != 0) := by
        rw [heq]; exact List.mem_cons_of_mem _ hc
      exact (List.mem_filter.1 hc').2

/-! ## Applying command lists -/

/-- One pass of `apply_patch`: execute each command in turn, copying
`sb[source .. source+size]` over `r[target .. target+size]`. -/
def applyCmds (sb : Bytes) (cmds : List CopyCmd) (r : Bytes) : Bytes :=
  cmds.foldl (fun r c => writeSlice r c.target (bslice sb c.source c.size)) r

theorem apply_patch_eq (base_data : Bytes) (patch : Patch) :
    apply_patch base_data patch =
      applyCmds patch.data patch.other
        (applyCmds base_data patch.base (List.replicate patch.other_size 0)) := rfl

theorem writeSlice_length (dst : Bytes) (t : Nat) (src : Bytes)
    (h : t + src.length ≤ dst.length) :
    (writeSlice dst t src).length = dst.length := by
  simp only [writeSlice, List.length_append, List.length_take, List.length_drop]
  omega

theorem writeSlice_getD (dst : Bytes) (t : Nat) (src : Bytes)
    (h : t + src.length ≤ dst.length) (pos : Nat) :
    (writeSlice dst t src).getD pos 0 =
      if t ≤ pos ∧ pos < t + src.length then src.getD (pos - t) 0 else dst.getD pos 0 := by
  have htake : (List.take t dst).length = t := by
    simp only [List.length_take]; omega
  have hlen2 : (List.take t dst ++ src).length = t + src.length := by
    simp only [List.length_append, List.length_take]; omega
  have key : (writeSlice dst t src)[pos]? =
      if t ≤ pos ∧ pos < t + src.length then src[pos - t]? else dst[pos]? := by
    simp only [writeSlice]
    rw [List.getElem?_append, hlen2]
    by_cases h2 : pos < t + src.length
    · rw [if_pos h2]
      rw [List.getElem?_append, htake]
      by_cases h1 : pos < t
      · rw [if_pos h1, List.getElem?_take, if_pos h1, if_neg (by omega)]
      · rw [if_neg h1, if_pos (by omega)]
    · rw [if_neg h2, List.getElem?_drop, if_neg (by omega)]
      congr 1
      omega
  rw [List.getD_eq_getElem?_getD, key]
  by_cases h3 : t ≤ pos ∧ pos < t + src.length
  · rw [if_pos h3, if_pos h3, List.getD_eq_getElem?_getD]
  · rw [if_neg h3, if_neg h3, List.getD_eq_getElem?_getD]

/-- Executing a list of coherent commands keeps the buffer length and
writes the wanted byte at every covered position, leaving the rest
untouched.  Overlaps are harmless because every coherent command writes
the same (correct) bytes. -/
theorem applyCmds_spec (sb other : Bytes) :
    ∀ (cmds : List CopyCmd) (r : Bytes),
      (∀ c ∈ cmds, CmdOk sb other c) → r.length = other.length →
      (applyCmds sb cmds r).length = other.length ∧
      ∀ pos, pos < other.length →
        (applyCmds sb cmds r).getD pos 0 =
          if 0 < cmds.countP (coversT pos) then other.getD pos 0 else r.getD pos 0 := by
  intro cmds
  induction cmds with
  | nil =>
    intro r _ hr
    refine ⟨hr, fun pos _ => ?_⟩
    simp [applyCmds, List.countP_nil]
  | cons c rest ih =>
    intro r hok hr
    obtain ⟨hc1, hc2, hc3⟩ := hok c (by simp)
    have hsl : (bslice sb c.source c.size).length = c.size := bslice_length _ _ _ hc1
    have hwb : c.target + (bslice sb c.source c.size).length ≤ r.length := by
      rw [hsl, hr]; exact hc2
    have hr1 : (writeSlice r c.target (bslice sb c.source c.size)).length = other.length := by
      rw [writeSlice_length _ _ _ hwb, hr]
    have happ : applyCmds sb (c :: rest) r
        = applyCmds sb rest (writeSlice r c.target (bslice sb c.source c.size)) := rfl
    obtain ⟨ihl, ihg⟩ := ih (writeSlice r c.target (bslice sb c.source c.size))
      (fun d hd => hok d (by simp [hd])) hr1
    rw [happ]
    refine ⟨ihl, fun pos hpos => ?_⟩
    rw [ihg pos hpos]
    have hw := writeSlice_getD r c.target (bslice sb c.source c.size) hwb pos
    rw [hsl] at hw
    have hcnt : (c :: rest).countP (coversT pos)
        = rest.countP (coversT pos) + if coversT pos c = true then 1 else 0 :=
      List.countP_cons _ _ _
    by_cases hrest : 0 < rest.countP (coversT pos)
    · rw [if_pos hrest, if_pos (by rw [hcnt]; omega)]
    · rw [if_neg hrest, hw]
      by_cases hcov : c.target ≤ pos ∧ pos < c.target + c.size
      · have hctrue : coversT pos c = true := by simpa [coversT] using hcov
        have hposc : 0 < (c :: rest).countP (coversT pos) := by
          rw [hcnt, hctrue]
          simp
        rw [if_pos hcov, if_pos hposc]
        have hgj2 : (bslice other c.target c.size).getD (pos - c.target) 0
            = other.getD (c.target + (pos - c.target)) 0 :=
          bslice_getD _ _ _ _ (by omega) hc2
        rw [hc3, hgj2]
        congr 1
        omega
      · have hcfalse : coversT pos c = false := by
          simp only [coversT, decide_eq_false_iff_not]
          exact hcov
        have hposc : ¬ 0 < (c :: rest).countP (coversT pos) := by
          rw [hcnt, hcfalse]
          simpa using hrest
        rw [if_neg hcov, if_neg hposc]

/-! ## Facts about the block partition -/

/-- `pos` lies in the half-open range of block `ob`. -/
def blockCovers (pos : Nat) (ob : Block) : Bool :=
  decide (ob.offset ≤ pos ∧ pos < ob.offset + ob.size)

theorem div_up_ge (len bs : Nat) (hbs : 1 ≤ bs) : len ≤ div_up len bs * bs := by
  rw [div_up, Nat.mul_comm]
  have hmod := Nat.div_add_mod (len + bs - 1) bs
  have hlt : (len + bs - 1) % bs < bs := Nat.mod_lt _ (by omega)
  omega

theorem mul_lt_of_lt_div_up (len bs i : Nat) (hbs : 1 ≤ bs) (hi : i < div_up len bs) :
    i * bs < len := by
  by_contra hle
  push_neg at hle
  have hup : div_up len bs ≤ i := by
    rw [div_up]
    have h1 : len + bs - 1 ≤ (bs - 1) + bs * i := by
      have : bs * i = i * bs := Nat.mul_comm ..
      omega
    have h2 : (len + bs - 1) / bs ≤ ((bs - 1) + bs * i) / bs := Nat.div_le_div_right h1
    have h3 : ((bs - 1) + bs * i) / bs = (bs - 1) / bs + i :=
      Nat.add_mul_div_left _ _ (by omega)
    have h4 : (bs - 1) / bs = 0 := Nat.div_eq_of_lt (by omega)
    omega
  omega

theorem div_lt_div_up (len bs pos : Nat) (hbs : 1 ≤ bs) (hpos : pos < len) :
    pos / bs < div_up len bs := by
  have h1 := div_up_ge len bs hbs
  rw [Nat.div_lt_iff_lt_mul (by omega)]
  omega

/-- A position below `len` lies in the range of block `i` iff `i` is the
index of the block containing it. -/
theorem block_range_iff (len bs pos i : Nat) (hbs : 1 ≤ bs) (hpos : pos < len) :
    (i * bs ≤ pos ∧ pos < min ((i + 1) * bs) len) ↔ i = pos / bs := by
  constructor
  · rintro ⟨h1, h2⟩
    have h2' : pos < (i + 1) * bs := lt_of_lt_of_le h2 (Nat.min_le_left _ _)
    have ha : i ≤ pos / bs := (Nat.le_div_iff_mul_le (by omega)).2 h1
    have hb : pos / bs < i + 1 := (Nat.div_lt_iff_lt_mul (by omega)).2 h2'
    omega
  · intro h
    subst h
    have h1 : pos / bs * bs ≤ pos := Nat.div_mul_le_self pos bs
    have hmod := Nat.div_add_mod pos bs
    have hlt : pos % bs < bs := Nat.mod_lt _ (by omega)
    have h2 : pos < (pos / bs + 1) * bs := by
      have he : (pos / bs + 1) * bs = bs * (pos / bs) + bs := by ring
      omega
    exact ⟨h1, lt_min h2 hpos⟩

theorem compute_blocks_mem (input : Bytes) (bs : Nat) (hbs : 1 ≤ bs) :
    ∀ ob ∈ compute_blocks input bs,
      ob.offset + ob.size ≤ input.length ∧ 1 ≤ ob.size ∧
      ob.hash_strong = bslice input ob.offset ob.size ∧
      ob.hash_strong.length = ob.size := by
  intro ob hob
  rw [compute_blocks, List.mem_map] at hob
  obtain ⟨i, hi, hob⟩ := hob
  rw [List.mem_range] at hi
  have hlt : i * bs < input.length := mul_lt_of_lt_div_up _ _ _ hbs hi
  have hoff : ob.offset = i * bs := by rw [← hob]
  have hsize : ob.size = min ((i + 1) * bs) input.length - i * bs := by rw [← hob]
  have hstep : i * bs < (i + 1) * bs := by
    have : (i + 1) * bs = i * bs + bs := by ring
    omega
  have hbound : ob.offset + ob.size ≤ input.length := by
    rw [hoff, hsize]
    omega
  refine ⟨hbound, by rw [hsize]; omega, ?_, ?_⟩
  · rw [← hob]
    simp only [compute_hash_strong]
  · have hstrong : ob.hash_strong = bslice input ob.offset ob.size := by
      rw [← hob]
      simp only [compute_hash_strong]
    rw [hstrong]
    exact bslice_length _ _ _ hbound

/-- The blocks of `compute_blocks` tile `[0, |input|)`: each position below
the input length is covered by exactly one block. -/
theorem compute_blocks_tile (input : Bytes) (bs : Nat) (hbs : 1 ≤ bs)
    (pos : Nat) (hpos : pos < input.length) :
    (compute_blocks input bs).countP (blockCovers pos) = 1 := by
  rw [compute_blocks, List.countP_map]
  refine Eq.trans (List.countP_congr (q := fun i => decide (i = pos / bs)) ?_) ?_
  · intro i hi
    rw [List.mem_range] at hi
    have hlt : i * bs < input.length := mul_lt_of_lt_div_up _ _ _ hbs hi
    have hstep : (i + 1) * bs = i * bs + bs := by ring
    show decide (i * bs ≤ pos ∧ pos < i * bs + (min ((i + 1) * bs) input.length - i * bs))
          = true
        ↔ decide (i = pos / bs) = true
    simp only [decide_eq_true_eq]
    rw [← block_range_iff input.length bs pos i hbs hpos]
    constructor
    · rintro ⟨h1, h2⟩
      exact ⟨h1, by omega⟩
    · rintro ⟨h1, h2⟩
      exact ⟨h1, by omega⟩
  · have hdiv : pos / bs < div_up input.length bs := div_lt_div_up _ _ _ hbs hpos
    have hcount : ∀ n : Nat, (List.range n).countP (fun i => decide (i = pos / bs))
        = if pos / bs < n then 1 else 0 := by
      intro n
      induction n with
      | zero => simp
      | succ m ih =>
        rw [List.range_succ, List.countP_append, ih]
        have hone : (List.countP (fun i => decide (i = pos / bs)) [m])
            = if m = pos / bs then 1 else 0 := by
          rw [List.countP_cons, List.countP_nil]
          by_cases hm2 : m = pos / bs
          · rw [if_pos (by simp [hm2]), if_pos hm2]
          · rw [if_neg (by simp [hm2]), if_neg hm2]
        rw [hone]
        by_cases hm : pos / bs < m
        · rw [if_pos hm, if_neg (by omega), if_pos (by omega)]
        · by_cases hm2 : m = pos / bs
          · rw [if_neg hm, if_pos hm2, if_pos (by omega)]
          · rw [if_neg hm, if_neg hm2, if_neg (by omega)]
    rw [hcount, if_pos hdiv]

/-! ## Facts about the finalization loop of compute_diff -/

theorem finalizeCmds_base_mem (bm : List (Bytes × Nat)) :
    ∀ (blocks : List Block) (c : CopyCmd), c ∈ (finalizeCmds bm blocks).base →
      ∃ ob ∈ blocks, ∃ off, mapLookup bm ob.hash_strong = some off ∧
        c = CopyCmd.mk off ob.offset ob.size := by
  intro blocks
  induction blocks with
  | nil => intro c hc; simp [finalizeCmds] at hc
  | cons ob rest ih =>
    intro c hc
    simp only [finalizeCmds] at hc
    match hlk : mapLookup bm ob.hash_strong with
    | some off =>
      rw [hlk] at hc
      rcases List.mem_cons.1 hc with hc | hc
      · exact ⟨ob, by simp, off, hlk, hc⟩
      · obtain ⟨ob', hob', off', hlk', hc'⟩ := ih c hc
        exact ⟨ob', by simp [hob'], off', hlk', hc'⟩
    | none =>
      rw [hlk] at hc
      obtain ⟨ob', hob', off', hlk', hc'⟩ := ih c hc
      exact ⟨ob', by simp [hob'], off', hlk', hc'⟩

theorem finalizeCmds_other_mem (bm : List (Bytes × Nat)) :
    ∀ (blocks : List Block) (c : CopyCmd), c ∈ (finalizeCmds bm blocks).other →
      ∃ ob ∈ blocks, mapLookup bm ob.hash_strong = none ∧
        c = CopyCmd.mk ob.offset ob.offset ob.size := by
  intro blocks
  induction blocks with
  | nil => intro c hc; simp [finalizeCmds] at hc
  | cons ob rest ih =>
    intro c hc
    simp only [finalizeCmds] at hc
    match hlk : mapLookup bm ob.hash_strong with
    | some off =>
      rw [hlk] at hc
      obtain ⟨ob', hob', hlk', hc'⟩ := ih c hc
      exact ⟨ob', by simp [hob'], hlk', hc'⟩
    | none =>
      rw [hlk] at hc
      rcases List.mem_cons.1 hc with hc | hc
      · exact ⟨ob, by simp, hlk, hc⟩
      · obtain ⟨ob', hob', hlk', hc'⟩ := ih c hc
        exact ⟨ob', by simp [hob'], hlk', hc'⟩

/-- Each block contributes exactly one command (to one of the two lists)
covering exactly the block's range. -/
theorem finalizeCmds_countP (bm : List (Bytes × Nat)) (pos : Nat) :
    ∀ (blocks : List Block),
      (finalizeCmds bm blocks).base.countP (coversT pos)
        + (finalizeCmds bm blocks).other.countP (coversT pos)
      = blocks.countP (blockCovers pos) := by
  intro blocks
  induction blocks with
  | nil => rfl
  | cons ob rest ih =>
    simp only [finalizeCmds]
    match hlk : mapLookup bm ob.hash_strong with
    | some off =>
      show (CopyCmd.mk off ob.offset ob.size :: (finalizeCmds bm rest).base).countP (coversT pos)
          + (finalizeCmds bm rest).other.countP (coversT pos)
        = (ob :: rest).countP (blockCovers pos)
      rw [List.countP_cons, List.countP_cons]
      have he : (coversT pos (CopyCmd.mk off ob.offset ob.size) = true)
          ↔ (blockCovers pos ob = true) := by
        simp [coversT, blockCovers]
      by_cases hcv : blockCovers pos ob = true
      · rw [if_pos hcv, if_pos (he.2 hcv)]
        omega
      · rw [if_neg hcv, if_neg (fun hx => hcv (he.1 hx))]
        omega
    | none =>
      show (finalizeCmds bm rest).base.countP (coversT pos)
          + (CopyCmd.mk ob.offset ob.offset ob.size
              :: (finalizeCmds bm rest).other).countP (coversT pos)
        = (ob :: rest).countP (blockCovers pos)
      rw [List.countP_cons, List.countP_cons]
      have he : (coversT pos (CopyCmd.mk ob.offset ob.offset ob.size) = true)
          ↔ (blockCovers pos ob = true) := by
        simp [coversT, blockCovers]
      by_cases hcv : blockCovers pos ob = true
      · rw [if_pos hcv, if_pos (he.2 hcv)]
        omega
      · rw [if_neg hcv, if_neg (fun hx => hcv (he.1 hx))]
        omega

theorem finalizeCmds_other_nil (bm : List (Bytes × Nat)) :
    ∀ (blocks : List Block),
      (∀ ob ∈ blocks, (mapLookup bm ob.hash_strong).isSome) →
      (finalizeCmds bm blocks).other = [] := by
  intro blocks
  induction blocks with
  | nil => intro _; rfl
  | cons ob rest ih =>
    intro hall
    simp only [finalizeCmds]
    match hlk : mapLookup bm ob.hash_strong with
    | some off =>
      exact ih fun ob' hob' => hall ob' (by simp [hob'])
    | none =>
      have := hall ob (by simp)
      rw [hlk] at this
      simp at this

/-! ## Facts about the payload-building fold of build_patch -/

/-- The state of the payload fold: invariants carried while `build_patch`
materializes the payload and rewrites the OTHER commands. -/
theorem buildFold_spec (other : Bytes) :
    ∀ (cmds : List CopyCmd) (pd0 : Bytes) (cs0 : List CopyCmd),
      (∀ c ∈ cmds, c.source = c.target ∧ c.target + c.size ≤ other.length) →
      (∀ c ∈ cs0, CmdOk pd0 other c) →
      (∀ pos, cs0.countP (coversS pos) = if pos < pd0.length then 1 else 0) →
      (∀ pos, (cmds.foldl
          (fun (acc : Bytes × List CopyCmd) cmd =>
            (acc.1 ++ bslice other cmd.source cmd.size,
             acc.2 ++ [CopyCmd.mk acc.1.length cmd.target cmd.size]))
          (pd0, cs0)).2.countP (coversS pos)
        = if pos < (cmds.foldl
            (fun (acc : Bytes × List CopyCmd) cmd =>
              (acc.1 ++ bslice other cmd.source cmd.size,
               acc.2 ++ [CopyCmd.mk acc.1.length cmd.target cmd.size]))
            (pd0, cs0)).1.length then 1 else 0) ∧
      (∀ c ∈ (cmds.foldl
          (fun (acc : Bytes × List CopyCmd) cmd =>
            (acc.1 ++ bslice other cmd.source cmd.size,
             acc.2 ++ [CopyCmd.mk acc.1.length cmd.target cmd.size]))
          (pd0, cs0)).2, CmdOk (cmds.foldl
          (fun (acc : Bytes × List CopyCmd) cmd =>
            (acc.1 ++ bslice other cmd.source cmd.size,
             acc.2 ++ [CopyCmd.mk acc.1.length cmd.target cmd.size]))
          (pd0, cs0)).1 other c) ∧
      (cmds.foldl
          (fun (acc : Bytes × List CopyCmd) cmd =>
            (acc.1 ++ bslice other cmd.source cmd.size,
             acc.2 ++ [CopyCmd.mk acc.1.length cmd.target cmd.size]))
          (pd0, cs0)).1.length = pd0.length + sizeSum cmds ∧
      ((cmds.foldl
          (fun (acc : Bytes × List CopyCmd) cmd =>
            (acc.1 ++ bslice other cmd.source cmd.size,
             acc.2 ++ [CopyCmd.mk acc.1.length cmd.target cmd.size]))
          (pd0, cs0)).2.map fun c => (c.target, c.size))
        = (cs0.map fun c => (c.target, c.size)) ++ (cmds.map fun c => (c.target, c.size)) := by
  intro cmds
  induction cmds with
  | nil =>
    intro pd0 cs0 _ hok hcov
    refine ⟨hcov, hok, by simp [sizeSum], by simp⟩
  | cons cmd rest ih =>
    intro pd0 cs0 hcmds hok hcov
    obtain ⟨hsrc, hbnd⟩ := hcmds cmd (by simp)
    have hrest : ∀ c ∈ rest, c.source = c.target ∧ c.target + c.size ≤ other.length :=
      fun c hc => hcmds c (by simp [hc])
    have hsl : (bslice other cmd.source cmd.size).length = cmd.size := by
      apply bslice_length
      rw [hsrc]
      exact hbnd
    have hstep : (cmd :: rest).foldl
        (fun (acc : Bytes × List CopyCmd) cmd =>
          (acc.1 ++ bslice other cmd.source cmd.size,
           acc.2 ++ [CopyCmd.mk acc.1.length cmd.target cmd.size]))
        (pd0, cs0)
      = rest.foldl
        (fun (acc : Bytes × List CopyCmd) cmd =>
          (acc.1 ++ bslice other cmd.source cmd.size,
           acc.2 ++ [CopyCmd.mk acc.1.length cmd.target cmd.size]))
        (pd0 ++ bslice other cmd.source cmd.size,
         cs0 ++ [CopyCmd.mk pd0.length cmd.target cmd.size]) := rfl
    have hok' : ∀ c ∈ cs0 ++ [CopyCmd.mk pd0.length cmd.target cmd.size],
        CmdOk (pd0 ++ bslice other cmd.source cmd.size) other c := by
      intro c hc
      rcases List.mem_append.1 hc with hc | hc
      · obtain ⟨h1, h2, h3⟩ := hok c hc
        refine ⟨by simp only [List.length_append]; omega, h2, ?_⟩
        rw [bslice_append_left _ _ _ _ h1]
        exact h3
      · have hc' : c = CopyCmd.mk pd0.length cmd.target cmd.size := by simpa using hc
        subst hc'
        refine ⟨?_, ?_, ?_⟩
        · show pd0.length + cmd.size ≤ _
          simp only [List.length_append, hsl]
          omega
        · show cmd.target + cmd.size ≤ other.length
          exact hbnd
        · show bslice (pd0 ++ bslice other cmd.source cmd.size) pd0.length cmd.size
            = bslice other cmd.target cmd.size
          have hx : bslice (pd0 ++ bslice other cmd.source cmd.size) pd0.length
              (bslice other cmd.source cmd.size).length = bslice other cmd.source cmd.size :=
            bslice_append_exact _ _
          rw [hsl] at hx
          rw [hx, hsrc]
    have hcov' : ∀ pos, (cs0 ++ [CopyCmd.mk pd0.length cmd.target cmd.size]).countP (coversS pos)
        = if pos < (pd0 ++ bslice other cmd.source cmd.size).length then 1 else 0 := by
      intro pos
      rw [List.countP_append, hcov pos, List.countP_cons, List.countP_nil]
      simp only [List.length_append, hsl, coversS, CopyCmd.mk_source, CopyCmd.mk_size,
        decide_eq_true_eq]
      by_cases h1 : pos < pd0.length
      · rw [if_pos h1, if_neg (by omega), if_pos (by omega)]
      · by_cases h2 : pos < pd0.length + cmd.size
        · rw [if_neg h1, if_pos (by omega), if_pos h2]
        · rw [if_neg h1, if_neg (by omega), if_neg h2]
    obtain ⟨ih1, ih2, ih3, ih4⟩ := ih (pd0 ++ bslice other cmd.source cmd.size)
      (cs0 ++ [CopyCmd.mk pd0.length cmd.target cmd.size]) hrest hok' hcov'
    rw [hstep]
    refine ⟨ih1, ih2, ?_, ?_⟩
    · rw [ih3]
      simp only [List.length_append, hsl, sizeSum, List.map_cons, List.sum_cons]
      omega
    · rw [ih4]
      simp

/-! ## Assembling the pipeline facts -/

/-- The payload fold of `build_patch`, from the empty payload. -/
def buildFold (other_data : Bytes) (cmds : List CopyCmd) : Bytes × List CopyCmd :=
  cmds.foldl
    (fun (acc : Bytes × List CopyCmd) cmd =>
      (acc.1 ++ bslice other_data cmd.source cmd.size,
       acc.2 ++ [CopyCmd.mk acc.1.length cmd.target cmd.size]))
    ([], [])

theorem build_patch_eq (od : Bytes) (pc : PatchCommands) :
    build_patch od pc = Patch.mk (buildFold od pc.other).1 (optimize_copy_cmds pc.base)
      (optimize_copy_cmds (buildFold od pc.other).2) od.length := rfl

theorem compute_diff_eq (input : Bytes) (blocks : List Block) (bs : Nat) :
    compute_diff input blocks bs
      = finalizeCmds (mkBaseMap (scanTrace input (blocks.map Block.hash_weak)
          (blocks.map Block.hash_strong) bs)) blocks := rfl

theorem mkBaseMap_eq_reverse (trace : List (Bytes × Nat)) :
    mkBaseMap trace = trace.reverse := by
  have key : ∀ (tr acc : List (Bytes × Nat)),
      tr.foldl (fun m p => p :: m) acc = tr.reverse ++ acc := by
    intro tr
    induction tr with
    | nil => intro acc; simp
    | cons p tr ih =>
      intro acc
      rw [List.foldl_cons, ih, List.reverse_cons, List.append_assoc]
      rfl
  rw [mkBaseMap, key, List.append_nil]

theorem mapLookup_mem {m : List (Bytes × Nat)} {k : Bytes} {v : Nat}
    (h : mapLookup m k = some v) : (k, v) ∈ m := by
  rw [mapLookup] at h
  cases hf : m.find? (fun p => p.1 == k) with
  | none => rw [hf] at h; simp at h
  | some q =>
    rw [hf] at h
    have hv : q.2 = v := by simpa using h
    have hm := List.mem_of_find?_eq_some hf
    have hk : q.1 = k := by simpa using List.find?_some hf
    have : q = (k, v) := by
      cases q
      simp_all
    rw [← this]
    exact hm

theorem mapLookup_isSome_of_mem {m : List (Bytes × Nat)} {k : Bytes} {v : Nat}
    (h : (k, v) ∈ m) : (mapLookup m k).isSome := by
  rw [mapLookup]
  have hs : (m.find? fun p => p.1 == k).isSome := by
    rw [List.find?_isSome]
    exact ⟨(k, v), h, by simp⟩
  cases hf : m.find? fun p => p.1 == k with
  | none => rw [hf] at hs; simp at hs
  | some q => rfl

theorem compute_diff_base_ok (base other : Bytes) (bs : Nat) (hbs : 1 ≤ bs) :
    ∀ c ∈ (compute_diff base (compute_blocks other bs) bs).base, CmdOk base other c := by
  intro c hc
  rw [compute_diff_eq] at hc
  obtain ⟨ob, hob, off, hlk, hceq⟩ := finalizeCmds_base_mem _ _ c hc
  obtain ⟨hbnd, hsz, hstrong, hslen⟩ := compute_blocks_mem other bs hbs ob hob
  have hment := mapLookup_mem hlk
  rw [mkBaseMap_eq_reverse, List.mem_reverse] at hment
  have hval := scanGo_valid base ((compute_blocks other bs).map Block.hash_weak)
    ((compute_blocks other bs).map Block.hash_strong) bs (base.length + 1)
    RollingHash.new 0 [] (by simp [RollingHash.new]) (by simp) _ hment
  have hval1 : ob.hash_strong = bslice base off ob.size := by
    have := hval.1
    rw [hslen] at this
    exact this
  have hval2 : off + ob.size ≤ base.length := by
    have := hval.2
    rw [hslen] at this
    exact this
  subst hceq
  refine ⟨?_, ?_, ?_⟩
  · show off + ob.size ≤ base.length
    exact hval2
  · show ob.offset + ob.size ≤ other.length
    exact hbnd
  · show bslice base off ob.size = bslice other ob.offset ob.size
    rw [← hval1, hstrong]

theorem compute_diff_other_shape (base other : Bytes) (bs : Nat) (hbs : 1 ≤ bs) :
    ∀ c ∈ (compute_diff base (compute_blocks other bs) bs).other,
      c.source = c.target ∧ c.target + c.size ≤ other.length := by
  intro c hc
  rw [compute_diff_eq] at hc
  obtain ⟨ob, hob, _, hceq⟩ := finalizeCmds_other_mem _ _ c hc
  obtain ⟨hbnd, hsz, _, _⟩ := compute_blocks_mem other bs hbs ob hob
  subst hceq
  exact ⟨rfl, hbnd⟩

theorem compute_diff_countP (base other : Bytes) (bs : Nat) (hbs : 1 ≤ bs)
    (pos : Nat) (hpos : pos < other.length) :
    (compute_diff base (compute_blocks other bs) bs).base.countP (coversT pos)
      + (compute_diff base (compute_blocks other bs) bs).other.countP (coversT pos) = 1 := by
  rw [compute_diff_eq, finalizeCmds_countP]
  exact compute_blocks_tile other bs hbs pos hpos

/-- Counting target coverage only looks at the `(target, size)` pairs. -/
theorem countP_coversT_map_pairs (pos : Nat) (l : List CopyCmd) :
    l.countP (coversT pos)
      = ((l.map fun c => (c.target, c.size)).countP
          fun ts => decide (ts.1 ≤ pos ∧ pos < ts.1 + ts.2)) := by
  rw [List.countP_map]
  rfl

/-- The total size only looks at the `(target, size)` pairs. -/
theorem sizeSum_map_pairs (l : List CopyCmd) :
    sizeSum l = ((l.map fun c => (c.target, c.size)).map Prod.snd).sum := by
  rw [sizeSum, List.map_map]
  rfl

theorem buildFold_facts (base other : Bytes) (bs : Nat) (hbs : 1 ≤ bs) :
    (∀ pos, (buildFold other (compute_diff base (compute_blocks other bs) bs).other).2.countP
        (coversS pos)
      = if pos < (buildFold other
          (compute_diff base (compute_blocks other bs) bs).other).1.length then 1 else 0) ∧
    (∀ c ∈ (buildFold other (compute_diff base (compute_blocks other bs) bs).other).2,
      CmdOk (buildFold other (compute_diff base (compute_blocks other bs) bs).other).1 other c) ∧
    (buildFold other (compute_diff base (compute_blocks other bs) bs).other).1.length
      = sizeSum (compute_diff base (compute_blocks other bs) bs).other ∧
    ((buildFold other (compute_diff base (compute_blocks other bs) bs).other).2.map
        fun c => (c.target, c.size))
      = (compute_diff base (compute_blocks other bs) bs).other.map fun c => (c.target, c.size) := by
  have hshape := compute_diff_other_shape base other bs hbs
  obtain ⟨h1, h2, h3, h4⟩ := buildFold_spec other
    (compute_diff base (compute_blocks other bs) bs).other [] []
    hshape (by intro c hc; simp at hc) (by intro pos; simp)
  refine ⟨h1, h2, ?_, ?_⟩
  · rw [show (buildFold other (compute_diff base (compute_blocks other bs) bs).other).1.length
        = ([] : Bytes).length
          + sizeSum (compute_diff base (compute_blocks other bs) bs).other from h3]
    simp
  · rw [show ((buildFold other (compute_diff base (compute_blocks other bs) bs).other).2.map
        fun c => (c.target, c.size))
        = (([] : List CopyCmd).map fun c => (c.target, c.size))
          ++ ((compute_diff base (compute_blocks other bs) bs).other.map
              fun c => (c.target, c.size)) from h4]
    simp

/-- Round trip: the full pipeline reconstructs OTHER from BASE. -/
theorem roundtrip_main (base other : Bytes) (bs : Nat) (hbs : 1 ≤ bs) :
    apply_patch base (build_patch other (compute_diff base (compute_blocks other bs) bs))
      = other := by
  obtain ⟨hb1, hb2, hb3, hb4⟩ := buildFold_facts base other bs hbs
  have hbase_ok : ∀ c ∈ (build_patch other
      (compute_diff base (compute_blocks other bs) bs)).base, CmdOk base other c := by
    intro c hc
    rw [build_patch_eq] at hc
    exact optimize_mem_ok base other _ (compute_diff_base_ok base other bs hbs) c hc
  have hother_ok : ∀ c ∈ (build_patch other
        (compute_diff base (compute_blocks other bs) bs)).other,
      CmdOk (build_patch other (compute_diff base (compute_blocks other bs) bs)).data other c := by
    intro c hc
    rw [build_patch_eq] at hc
    rw [build_patch_eq]
    exact optimize_mem_ok _ other _ hb2 c hc
  have hcover : ∀ pos, pos < other.length →
      0 < (build_patch other (compute_diff base (compute_blocks other bs) bs)).base.countP
          (coversT pos)
      ∨ 0 < (build_patch other (compute_diff base (compute_blocks other bs) bs)).other.countP
          (coversT pos) := by
    intro pos hpos
    have e1 : (build_patch other (compute_diff base (compute_blocks other bs) bs)).base.countP
        (coversT pos)
        = (compute_diff base (compute_blocks other bs) bs).base.countP (coversT pos) := by
      rw [build_patch_eq]
      exact optimize_countP_coversT pos _
    have e2 : (build_patch other (compute_diff base (compute_blocks other bs) bs)).other.countP
        (coversT pos)
        = (compute_diff base (compute_blocks other bs) bs).other.countP (coversT pos) := by
      rw [build_patch_eq]
      show (optimize_copy_cmds (buildFold other
          (compute_diff base (compute_blocks other bs) bs).other).2).countP (coversT pos) = _
      rw [optimize_countP_coversT pos _, countP_coversT_map_pairs, hb4,
        ← countP_coversT_map_pairs]
    have hsum := compute_diff_countP base other bs hbs pos hpos
    omega
  have hN : (build_patch other
      (compute_diff base (compute_blocks other bs) bs)).other_size = other.length := rfl
  rw [apply_patch_eq]
  have hr0 : (List.replicate (build_patch other
      (compute_diff base (compute_blocks other bs) bs)).other_size 0).length = other.length := by
    rw [hN, List.length_replicate]
  obtain ⟨hl1, hg1⟩ := applyCmds_spec base other _ _ hbase_ok hr0
  obtain ⟨hl2, hg2⟩ := applyCmds_spec
    (build_patch other (compute_diff base (compute_blocks other bs) bs)).data other _ _
    hother_ok hl1
  refine List.ext_getElem (by rw [hl2]) ?_
  intro n h1 h2
  have hn : n < other.length := h2
  rw [← List.getD_eq_getElem _ 0 h1, ← List.getD_eq_getElem _ 0 h2]
  rw [hg2 n hn]
  by_cases hco : 0 < (build_patch other
      (compute_diff base (compute_blocks other bs) bs)).other.countP (coversT n)
  · rw [if_pos hco]
  · rw [if_neg hco, hg1 n hn]
    rcases hcover n hn with h | h
    · rw [if_pos h]
    · exact absurd h hco

/-! ## Equal inputs: the scan confirms every aligned block -/

theorem div_up_le (len bs m : Nat) (hbs : 1 ≤ bs) (h : len ≤ m * bs) : div_up len bs ≤ m := by
  rw [div_up]
  have h2 : (len + bs - 1) / bs < m + 1 := by
    rw [Nat.div_lt_iff_lt_mul (by omega)]
    have he : (m + 1) * bs = m * bs + bs := by ring
    omega
  omega

/-- One unfolding of the scan loop. -/
theorem scanGo_unfold (input : Bytes) (ws : List Nat) (keys : List Bytes) (bs : Nat)
    (fuel : Nat) (rh : RollingHash) (wb : Nat) (acc : List (Bytes × Nat)) :
    scanGo input ws keys bs (fuel + 1) rh wb acc
      = if input.length ≤ wb then acc
        else if ws.contains (growWindow input rh (wb + rh.count)
              (min (input.length - wb) bs)).1.get
            && keys.contains (compute_hash_strong (bslice input wb
              ((growWindow input rh (wb + rh.count) (min (input.length - wb) bs)).2 - wb)))
          then scanGo input ws keys bs fuel RollingHash.new
              (growWindow input rh (wb + rh.count) (min (input.length - wb) bs)).2
              (acc ++ [(compute_hash_strong (bslice input wb
                ((growWindow input rh (wb + rh.count)
                  (min (input.length - wb) bs)).2 - wb)), wb)])
          else scanGo input ws keys bs fuel
              ((growWindow input rh (wb + rh.count) (min (input.length - wb) bs)).1.sub
                (input.getD wb 0)) (wb + 1) acc := rfl

theorem growWindow_fresh (input : Bytes) (we target : Nat) (h : we + target ≤ input.length) :
    growWindow input RollingHash.new we target
      = (RollingHash.new.update (bslice input we target), we + target) := by
  have e0 : growWindow input RollingHash.new we target
      = growWindowAux input RollingHash.new we target := rfl
  have e1 : growWindowAux input RollingHash.new we target
      = ((growWindowAux input RollingHash.new we target).1,
         (growWindowAux input RollingHash.new we target).2) := rfl
  rw [e0, e1, growWindowAux_eq_update input target RollingHash.new we h,
    growWindowAux_snd input target RollingHash.new we]

/-- With BASE = OTHER = `s`, starting at any block boundary `k * bs` with an
empty window, the scan confirms every remaining aligned block: each block's
contents show up in the recorded trace. -/
theorem scanGo_self_mem (s : Bytes) (bs : Nat) (hbs : 1 ≤ bs) :
    ∀ (d k fuel : Nat) (acc : List (Bytes × Nat)),
      div_up s.length bs ≤ k + d →
      s.length - k * bs < fuel →
      ∀ j, k ≤ j → j < div_up s.length bs →
        ∃ off, (bslice s (j * bs) (min ((j + 1) * bs) s.length - j * bs), off)
          ∈ scanGo s ((compute_blocks s bs).map Block.hash_weak)
              ((compute_blocks s bs).map Block.hash_strong) bs fuel
              RollingHash.new (k * bs) acc := by
  intro d
  induction d with
  | zero =>
    intro k fuel acc hk _ j hkj hj
    omega
  | succ d ih =>
    intro k fuel acc hk hfuel j hkj hj
    by_cases hknb : div_up s.length bs ≤ k
    · omega
    · push_neg at hknb
      have hklt : k * bs < s.length := mul_lt_of_lt_div_up _ _ _ hbs hknb
      have hstep : (k + 1) * bs = k * bs + bs := by ring
      have hsz : min (s.length - k * bs) bs = min ((k + 1) * bs) s.length - k * bs := by
        omega
      match fuel, hfuel with
      | f + 1, hfuel =>
        rw [scanGo_unfold, if_neg (by omega)]
        have hcnt0 : RollingHash.new.count = 0 := rfl
        have hgrow : growWindow s RollingHash.new (k * bs + RollingHash.new.count)
            (min (s.length - k * bs) bs)
            = (RollingHash.new.update (bslice s (k * bs) (min (s.length - k * bs) bs)),
               k * bs + min (s.length - k * bs) bs) := by
          rw [hcnt0, Nat.add_zero]
          exact growWindow_fresh s (k * bs) (min (s.length - k * bs) bs) (by omega)
        have hblockmem : (Block.mk (k * bs) (min ((k + 1) * bs) s.length - k * bs)
            (compute_hash_weak (bslice s (k * bs) (min ((k + 1) * bs) s.length - k * bs)))
            (compute_hash_strong (bslice s (k * bs) (min ((k + 1) * bs) s.length - k * bs))))
            ∈ compute_blocks s bs := by
          rw [compute_blocks]
          exact List.mem_map.2 ⟨k, List.mem_range.2 hknb, rfl⟩
        have hcond : (((compute_blocks s bs).map Block.hash_weak).contains
              (growWindow s RollingHash.new (k * bs + RollingHash.new.count)
                (min (s.length - k * bs) bs)).1.get
            && ((compute_blocks s bs).map Block.hash_strong).contains
              (compute_hash_strong (bslice s (k * bs)
                ((growWindow s RollingHash.new (k * bs + RollingHash.new.count)
                  (min (s.length - k * bs) bs)).2 - k * bs)))) = true := by
          rw [hgrow]
          have hsub : k * bs + min (s.length - k * bs) bs - k * bs
              = min (s.length - k * bs) bs := by omega
          rw [hsub]
          apply Bool.and_eq_true_iff.2
          constructor
          · apply List.elem_iff.2
            apply List.mem_map.2
            refine ⟨_, hblockmem, ?_⟩
            show compute_hash_weak (bslice s (k * bs) (min ((k + 1) * bs) s.length - k * bs))
              = _
            rw [hsz]
            rfl
          · apply List.elem_iff.2
            apply List.mem_map.2
            refine ⟨_, hblockmem, ?_⟩
            show compute_hash_strong (bslice s (k * bs) (min ((k + 1) * bs) s.length - k * bs))
              = _
            rw [hsz]
        rw [if_pos hcond, hgrow]
        have hsub : k * bs + min (s.length - k * bs) bs - k * bs
            = min (s.length - k * bs) bs := by omega
        by_cases hjk : j = k
        · subst hjk
          obtain ⟨rest, hrest⟩ := scanGo_acc s _ _ bs f RollingHash.new
            (j * bs + min (s.length - j * bs) bs)
            (acc ++ [(compute_hash_strong (bslice s (j * bs)
              (j * bs + min (s.length - j * bs) bs - j * bs)), j * bs)])
          refine ⟨j * bs, ?_⟩
          rw [hrest]
          apply List.mem_append_left
          apply List.mem_append_right
          have he : compute_hash_strong (bslice s (j * bs)
              (j * bs + min (s.length - j * bs) bs - j * bs))
              = bslice s (j * bs) (min ((j + 1) * bs) s.length - j * bs) := by
            rw [hsub, hsz]
            rfl
          rw [he]
          simp
        · have hjk1 : k + 1 ≤ j := by omega
          by_cases htail : (k + 1) * bs ≤ s.length
          · have hg2 : k * bs + min (s.length - k * bs) bs = (k + 1) * bs := by omega
            rw [hg2]
            exact ih (k + 1) f _ (by omega) (by omega) j hjk1 hj
          · have hnb : div_up s.length bs ≤ k + 1 := div_up_le _ _ _ hbs (by omega)
            omega

theorem equal_inputs_other_nil (s : Bytes) (bs : Nat) (hbs : 1 ≤ bs) :
    (compute_diff s (compute_blocks s bs) bs).other = [] := by
  rw [compute_diff_eq]
  apply finalizeCmds_other_nil
  intro ob hob
  have hob' := hob
  rw [compute_blocks, List.mem_map] at hob'
  obtain ⟨j, hj, hobj⟩ := hob'
  rw [List.mem_range] at hj
  obtain ⟨off, hoff⟩ := scanGo_self_mem s bs hbs (div_up s.length bs) 0 (s.length + 1) []
    (by omega) (by rw [Nat.zero_mul]; omega) j (by omega) hj
  rw [Nat.zero_mul] at hoff
  apply mapLookup_isSome_of_mem (v := off)
  rw [mkBaseMap_eq_reverse, List.mem_reverse]
  have hkey : ob.hash_strong
      = bslice s (j * bs) (min ((j + 1) * bs) s.length - j * bs) := by
    rw [← hobj]
    rfl
  rw [hkey]
  exact hoff

theorem equal_inputs_payload_nil (s : Bytes) (bs : Nat) (hbs : 1 ≤ bs) :
    (build_patch s (compute_diff s (compute_blocks s bs) bs)).data = [] := by
  rw [build_patch_eq]
  show (buildFold s (compute_diff s (compute_blocks s bs) bs).other).1 = []
  rw [equal_inputs_other_nil s bs hbs]
  rfl

/-! ## The match map keeps the most recent confirmed window -/

/-- Looking up the match map built from the scan trace returns the offset
recorded by the LAST insert with that key: `HashMap::insert` overwrites. -/
theorem mapLookup_reverse_getLast (tr : List (Bytes × Nat)) (k : Bytes) :
    mapLookup tr.reverse k = ((tr.filter fun p => p.1 == k).getLast?).map Prod.snd := by
  rw [mapLookup, ← List.filter_head? _ tr.reverse, List.filter_reverse, List.head?_reverse]

/-! ## Output length of apply_patch -/

theorem applyCmds_length (sb : Bytes) :
    ∀ (cmds : List CopyCmd) (r : Bytes),
      (∀ c ∈ cmds, c.source + c.size ≤ sb.length ∧ c.target + c.size ≤ r.length) →
      (applyCmds sb cmds r).length = r.length := by
  intro cmds
  induction cmds with
  | nil => intro r _; rfl
  | cons c rest ih =>
    intro r hok
    obtain ⟨h1, h2⟩ := hok c (by simp)
    have hsl : (bslice sb c.source c.size).length = c.size := bslice_length _ _ _ h1
    have hw : (writeSlice r c.target (bslice sb c.source c.size)).length = r.length := by
      apply writeSlice_length
      rw [hsl]
      exact h2
    have happ : applyCmds sb (c :: rest) r
        = applyCmds sb rest (writeSlice r c.target (bslice sb c.source c.size)) := rfl
    rw [happ, ih _ (fun d hd => by rw [hw]; exact hok d (by simp [hd])), hw]

/-! ## Pipeline facts shared by the tiling and payload claims -/

theorem pipeline_base_ok (base other : Bytes) (bs : Nat) (hbs : 1 ≤ bs) :
    ∀ c ∈ (build_patch other (compute_diff base (compute_blocks other bs) bs)).base,
      CmdOk base other c := by
  intro c hc
  rw [build_patch_eq] at hc
  exact optimize_mem_ok base other _ (compute_diff_base_ok base other bs hbs) c hc

theorem pipeline_other_ok (base other : Bytes) (bs : Nat) (hbs : 1 ≤ bs) :
    ∀ c ∈ (build_patch other (compute_diff base (compute_blocks other bs) bs)).other,
      CmdOk (build_patch other (compute_diff base (compute_blocks other bs) bs)).data other c := by
  intro c hc
  obtain ⟨hb1, hb2, hb3, hb4⟩ := buildFold_facts base other bs hbs
  rw [build_patch_eq] at hc ⊢
  exact optimize_mem_ok _ other _ hb2 c hc

theorem pipeline_countT (base other : Bytes) (bs : Nat) (hbs : 1 ≤ bs) (pos : Nat)
    (hpos : pos < other.length) :
    (build_patch other (compute_diff base (compute_blocks other bs) bs)).base.countP
        (coversT pos)
      + (build_patch other (compute_diff base (compute_blocks other bs) bs)).other.countP
        (coversT pos) = 1 := by
  obtain ⟨hb1, hb2, hb3, hb4⟩ := buildFold_facts base other bs hbs
  have e1 : (build_patch other (compute_diff base (compute_blocks other bs) bs)).base.countP
      (coversT pos)
      = (compute_diff base (compute_blocks other bs) bs).base.countP (coversT pos) := by
    rw [build_patch_eq]
    exact optimize_countP_coversT pos _
  have e2 : (build_patch other (compute_diff base (compute_blocks other bs) bs)).other.countP
      (coversT pos)
      = (compute_diff base (compute_blocks other bs) bs).other.countP (coversT pos) := by
    rw [build_patch_eq]
    show (optimize_copy_cmds (buildFold other
        (compute_diff base (compute_blocks other bs) bs).other).2).countP (coversT pos) = _
    rw [optimize_countP_coversT pos _, countP_coversT_map_pairs, hb4,
      ← countP_coversT_map_pairs]
  rw [e1, e2]
  exact compute_diff_countP base other bs hbs pos hpos

/-! ## The claims -/

/-- C1: Round-trip.  For every BASE byte sequence, every OTHER byte sequence
and every block size B ≥ 1 (in particular the CLI range 2^6..2^24),
`apply_patch BASE (build_patch OTHER (compute_diff BASE (compute_blocks OTHER B) B))`
reproduces OTHER byte for byte. -/
theorem claim_C1_round_trip (base other : Bytes) (bs : Nat) (hbs : 1 ≤ bs) :
    apply_patch base (build_patch other (compute_diff base (compute_blocks other bs) bs))
      = other :=
  roundtrip_main base other bs hbs

/-- Witness for C1 at BASE = "abcd", OTHER = "abc", B = 2. -/
theorem claim_C1_round_trip_witness :
    1 ≤ 2 ∧ apply_patch [97, 98, 99, 100]
        (build_patch [97, 98, 99]
          (compute_diff [97, 98, 99, 100] (compute_blocks [97, 98, 99] 2) 2))
      = [97, 98, 99] :=
  ⟨by decide, claim_C1_round_trip [97, 98, 99, 100] [97, 98, 99] 2 (by decide)⟩

/-- C2: Tiling.  In the finalized Patch, the target ranges of the base and
other command lists together cover every position of `[0, |OTHER|)` exactly
once, and no command's target range reaches beyond `|OTHER|`. -/
theorem claim_C2_tiling (base other : Bytes) (bs : Nat) (hbs : 1 ≤ bs) :
    (∀ pos, pos < other.length →
      (build_patch other (compute_diff base (compute_blocks other bs) bs)).base.countP
          (coversT pos)
        + (build_patch other (compute_diff base (compute_blocks other bs) bs)).other.countP
          (coversT pos) = 1) ∧
    (∀ c ∈ (build_patch other (compute_diff base (compute_blocks other bs) bs)).base
        ++ (build_patch other (compute_diff base (compute_blocks other bs) bs)).other,
      c.target + c.size ≤ other.length) := by
  refine ⟨fun pos hpos => pipeline_countT base other bs hbs pos hpos, fun c hc => ?_⟩
  rcases List.mem_append.1 hc with hc | hc
  · exact (pipeline_base_ok base other bs hbs c hc).2.1
  · exact (pipeline_other_ok base other bs hbs c hc).2.1

/-- Witness for C2 at BASE = "abcd", OTHER = "abc", B = 2. -/
theorem claim_C2_tiling_witness :
    1 ≤ 2 ∧
    ((∀ pos, pos < ([97, 98, 99] : Bytes).length →
      (build_patch [97, 98, 99] (compute_diff [97, 98, 99, 100]
          (compute_blocks [97, 98, 99] 2) 2)).base.countP (coversT pos)
        + (build_patch [97, 98, 99] (compute_diff [97, 98, 99, 100]
          (compute_blocks [97, 98, 99] 2) 2)).other.countP (coversT pos) = 1) ∧
    (∀ c ∈ (build_patch [97, 98, 99] (compute_diff [97, 98, 99, 100]
          (compute_blocks [97, 98, 99] 2) 2)).base
        ++ (build_patch [97, 98, 99] (compute_diff [97, 98, 99, 100]
          (compute_blocks [97, 98, 99] 2) 2)).other,
      c.target + c.size ≤ ([97, 98, 99] : Bytes).length)) :=
  ⟨by decide, claim_C2_tiling [97, 98, 99, 100] [97, 98, 99] 2 (by decide)⟩

/-- C3: Payload minimality.  The payload length equals the sum of the size
fields of the other commands, and every payload byte is referenced by
exactly one other command (no dead bytes, no double use). -/
theorem claim_C3_payload_minimality (base other : Bytes) (bs : Nat) (hbs : 1 ≤ bs) :
    (build_patch other (compute_diff base (compute_blocks other bs) bs)).data.length
      = sizeSum (build_patch other (compute_diff base (compute_blocks other bs) bs)).other ∧
    ∀ pos,
      pos < (build_patch other (compute_diff base (compute_blocks other bs) bs)).data.length →
      (build_patch other (compute_diff base (compute_blocks other bs) bs)).other.countP
        (coversS pos) = 1 := by
  obtain ⟨hb1, hb2, hb3, hb4⟩ := buildFold_facts base other bs hbs
  have hdata : (build_patch other (compute_diff base (compute_blocks other bs) bs)).data
      = (buildFold other (compute_diff base (compute_blocks other bs) bs).other).1 := by
    rw [build_patch_eq]
  have hsum : sizeSum (build_patch other
        (compute_diff base (compute_blocks other bs) bs)).other
      = sizeSum (compute_diff base (compute_blocks other bs) bs).other := by
    rw [build_patch_eq]
    show sizeSum (optimize_copy_cmds (buildFold other
        (compute_diff base (compute_blocks other bs) bs).other).2) = _
    rw [optimize_sizeSum, sizeSum_map_pairs, hb4, ← sizeSum_map_pairs]
  constructor
  · rw [hdata, hsum, hb3]
  · intro pos hpos
    rw [hdata] at hpos
    have e1 : (build_patch other
          (compute_diff base (compute_blocks other bs) bs)).other.countP (coversS pos)
        = (buildFold other (compute_diff base (compute_blocks other bs) bs).other).2.countP
            (coversS pos) := by
      rw [build_patch_eq]
      exact optimize_countP_coversS pos _
    rw [e1, hb1 pos, if_pos hpos]

/-- Witness for C3 at BASE = "aaa", OTHER = "bbb", B = 2 (payload "bbb"). -/
theorem claim_C3_payload_minimality_witness :
    1 ≤ 2 ∧
    (((build_patch [98, 98, 98] (compute_diff [97, 97, 97]
          (compute_blocks [98, 98, 98] 2) 2)).data.length
      = sizeSum (build_patch [98, 98, 98] (compute_diff [97, 97, 97]
          (compute_blocks [98, 98, 98] 2) 2)).other) ∧
    ∀ pos, pos < (build_patch [98, 98, 98] (compute_diff [97, 97, 97]
          (compute_blocks [98, 98, 98] 2) 2)).data.length →
      (build_patch [98, 98, 98] (compute_diff [97, 97, 97]
          (compute_blocks [98, 98, 98] 2) 2)).other.countP (coversS pos) = 1) :=
  ⟨by decide, claim_C3_payload_minimality [97, 97, 97] [98, 98, 98] 2 (by decide)⟩

/-- C4 counterexample: the adjacency-merge pass is NOT idempotent on every
command list with non-overflowing arithmetic.  A size-0 command sitting
between two mergeable neighbours is dropped by `retain` in the first pass,
which makes the neighbours adjacent, so a second pass merges more. -/
theorem claim_C4_counterexample :
    (∀ c ∈ [CopyCmd.mk 0 0 4, CopyCmd.mk 100 1 0, CopyCmd.mk 4 4 6],
        c.source + c.size < 2 ^ 64 ∧ c.target + c.size < 2 ^ 64) ∧
    optimize_copy_cmds (optimize_copy_cmds
        [CopyCmd.mk 0 0 4, CopyCmd.mk 100 1 0, CopyCmd.mk 4 4 6])
      ≠ optimize_copy_cmds [CopyCmd.mk 0 0 4, CopyCmd.mk 100 1 0, CopyCmd.mk 4 4 6] :=
  ⟨by decide, by decide⟩

/-- C4 (amended): for every list of CopyCmds with nonzero sizes (size 0 is
reserved as a tombstone and never appears in real inputs), running the
adjacency-merge pass twice yields the same list as running it once. -/
theorem claim_C4_optimize_idempotent (cmds : List CopyCmd) (h : ∀ c ∈ cmds, c.size ≠ 0) :
    optimize_copy_cmds (optimize_copy_cmds cmds) = optimize_copy_cmds cmds :=
  optimize_copy_cmds_idem cmds h

/-- Witness for the amended C4. -/
theorem claim_C4_optimize_idempotent_witness :
    (∀ c ∈ [CopyCmd.mk 0 0 4, CopyCmd.mk 9 7 2, CopyCmd.mk 4 4 6], c.size ≠ 0) ∧
    optimize_copy_cmds (optimize_copy_cmds
        [CopyCmd.mk 0 0 4, CopyCmd.mk 9 7 2, CopyCmd.mk 4 4 6])
      = optimize_copy_cmds [CopyCmd.mk 0 0 4, CopyCmd.mk 9 7 2, CopyCmd.mk 4 4 6] :=
  ⟨by decide, claim_C4_optimize_idempotent _ (by decide)⟩

/-- C5: Equal inputs.  With BASE = OTHER = S and any block size B ≥ 1, the
diff emits no OTHER commands, the patch payload is empty, and applying the
patch reproduces S. -/
theorem claim_C5_equal_inputs (s : Bytes) (bs : Nat) (hbs : 1 ≤ bs) :
    (compute_diff s (compute_blocks s bs) bs).other = [] ∧
    (build_patch s (compute_diff s (compute_blocks s bs) bs)).data = [] ∧
    apply_patch s (build_patch s (compute_diff s (compute_blocks s bs) bs)) = s :=
  ⟨equal_inputs_other_nil s bs hbs, equal_inputs_payload_nil s bs hbs,
   roundtrip_main s s bs hbs⟩

/-- Witness for C5 at S = [10, 20, 30], B = 2. -/
theorem claim_C5_equal_inputs_witness :
    1 ≤ 2 ∧
    ((compute_diff [10, 20, 30] (compute_blocks [10, 20, 30] 2) 2).other = [] ∧
    (build_patch [10, 20, 30] (compute_diff [10, 20, 30]
        (compute_blocks [10, 20, 30] 2) 2)).data = [] ∧
    apply_patch [10, 20, 30] (build_patch [10, 20, 30]
        (compute_diff [10, 20, 30] (compute_blocks [10, 20, 30] 2) 2)) = [10, 20, 30]) :=
  ⟨by decide, claim_C5_equal_inputs [10, 20, 30] 2 (by decide)⟩

/-- C6 counterexample: the match map does NOT keep the first confirmed
window.  With BASE = "abab", OTHER = "ab", B = 2, the scan confirms windows
at offsets 0 and 2 with the same strong hash (the trace records both, in
order), yet the emitted base command copies from offset 2: `HashMap::insert`
overwrites, so the last writer wins, not the first. -/
theorem claim_C6_counterexample :
    scanTrace [97, 98, 97, 98] ((compute_blocks [97, 98] 2).map Block.hash_weak)
        ((compute_blocks [97, 98] 2).map Block.hash_strong) 2
      = [([97, 98], 0), ([97, 98], 2)] ∧
    (compute_diff [97, 98, 97, 98] (compute_blocks [97, 98] 2) 2).base
      = [CopyCmd.mk 2 0 2] :=
  ⟨by decide, by decide⟩

/-- C6 (amended): the match map keeps the LAST confirmed BASE window with a
given strong hash (last writer wins); consequently a matched OTHER block's
base command copies from the offset of the last confirmed window with its
strong hash. -/
theorem claim_C6_last_writer_wins (input : Bytes) (ws : List Nat) (keys : List Bytes)
    (bs : Nat) (h : Bytes) :
    mapLookup (mkBaseMap (scanTrace input ws keys bs)) h
      = (((scanTrace input ws keys bs).filter fun p => p.1 == h).getLast?).map Prod.snd := by
  rw [mkBaseMap_eq_reverse]
  exact mapLookup_reverse_getLast _ h

/-- C7 counterexample: with BASE = "abcd", OTHER = "abc", B = 2, the block
"c" is NOT resolved from BASE: the tail windows of the scan are "cd" and
then "d", never the single byte "c" at offset 2, so the OTHER list carries
one command and the payload is "c" rather than both being empty. -/
theorem claim_C7_counterexample :
    (compute_diff [97, 98, 99, 100] (compute_blocks [97, 98, 99] 2) 2).other
      = [CopyCmd.mk 2 2 1] ∧
    (build_patch [97, 98, 99] (compute_diff [97, 98, 99, 100]
        (compute_blocks [97, 98, 99] 2) 2)).data = [99] :=
  ⟨by decide, by decide⟩

/-- C7 (amended): with BASE = "abcd", OTHER = "abc", B = 2, compute_blocks
yields blocks "ab" (offset 0, size 2) and "c" (offset 2, size 1); "ab" is
resolved from BASE offset 0, while "c" is carried in the payload (one OTHER
command of size 1); the round trip still reproduces "abc". -/
theorem claim_C7_scenario :
    compute_blocks [97, 98, 99] 2
      = [Block.mk 0 2 (compute_hash_weak [97, 98]) [97, 98],
         Block.mk 2 1 (compute_hash_weak [99]) [99]] ∧
    build_patch [97, 98, 99]
        (compute_diff [97, 98, 99, 100] (compute_blocks [97, 98, 99] 2) 2)
      = Patch.mk [99] [CopyCmd.mk 0 0 2] [CopyCmd.mk 0 2 1] 3 ∧
    apply_patch [97, 98, 99, 100]
        (build_patch [97, 98, 99]
          (compute_diff [97, 98, 99, 100] (compute_blocks [97, 98, 99] 2) 2))
      = [97, 98, 99] :=
  ⟨by decide, by decide, by decide⟩

/-- C8: WeakHash add/remove cancellation.  Starting from a fresh
RollingHash, adding the bytes of any sequence and then removing them in the
same oldest-first order returns the whole (a, b, count) state — and hence
the digest — to the fresh state; all arithmetic wraps, so no step
over- or under-flows. -/
theorem claim_C8_rolling_cancellation (xs : List Nat) :
    xs.foldl RollingHash.sub (xs.foldl RollingHash.add RollingHash.new) = RollingHash.new ∧
    (xs.foldl RollingHash.sub (xs.foldl RollingHash.add RollingHash.new)).get
      = RollingHash.new.get := by
  have h1 : RhInv xs (xs.foldl RollingHash.add RollingHash.new) := by
    have := @rhInv_foldl_add xs [] RollingHash.new rhInv_new
    simpa using this
  have h2 : RhInv [] (xs.foldl RollingHash.sub (xs.foldl RollingHash.add RollingHash.new)) := by
    apply rhInv_foldl_sub
    simpa using h1
  have h3 := rhInv_nil_eq_new h2
  exact ⟨h3, by rw [h3]⟩

/-- C9: apply_patch output length.  For any base data and any Patch whose
commands stay within bounds, the reconstructed buffer has length exactly
`other_size`, even when the commands do not tile the output. -/
theorem claim_C9_apply_length (base_data : Bytes) (patch : Patch)
    (hb : ∀ c ∈ patch.base, c.source + c.size ≤ base_data.length
        ∧ c.target + c.size ≤ patch.other_size)
    (ho : ∀ c ∈ patch.other, c.source + c.size ≤ patch.data.length
        ∧ c.target + c.size ≤ patch.other_size) :
    (apply_patch base_data patch).length = patch.other_size := by
  rw [apply_patch_eq]
  have hr0 : (List.replicate patch.other_size 0).length = patch.other_size :=
    List.length_replicate ..
  have h1 : (applyCmds base_data patch.base (List.replicate patch.other_size 0)).length
      = patch.other_size := by
    rw [applyCmds_length base_data patch.base _ fun c hc => by
      rw [hr0]; exact hb c hc]
    exact hr0
  rw [applyCmds_length patch.data patch.other _ fun c hc => by
    rw [h1]; exact ho c hc]
  exact h1

/-- Witness for C9: a patch whose commands do not tile the 4-byte output. -/
theorem claim_C9_apply_length_witness :
    (∀ c ∈ (Patch.mk [7] [CopyCmd.mk 0 1 1] [CopyCmd.mk 0 0 1] 4).base,
        c.source + c.size ≤ ([5, 6] : Bytes).length
        ∧ c.target + c.size ≤ (Patch.mk [7] [CopyCmd.mk 0 1 1] [CopyCmd.mk 0 0 1] 4).other_size) ∧
    (∀ c ∈ (Patch.mk [7] [CopyCmd.mk 0 1 1] [CopyCmd.mk 0 0 1] 4).other,
        c.source + c.size ≤ (Patch.mk [7] [CopyCmd.mk 0 1 1] [CopyCmd.mk 0 0 1] 4).data.length
        ∧ c.target + c.size ≤ (Patch.mk [7] [CopyCmd.mk 0 1 1] [CopyCmd.mk 0 0 1] 4).other_size) ∧
    (apply_patch [5, 6] (Patch.mk [7] [CopyCmd.mk 0 1 1] [CopyCmd.mk 0 0 1] 4)).length
      = (Patch.mk [7] [CopyCmd.mk 0 1 1] [CopyCmd.mk 0 0 1] 4).other_size :=
  ⟨by decide, by decide,
   claim_C9_apply_length [5, 6] (Patch.mk [7] [CopyCmd.mk 0 1 1] [CopyCmd.mk 0 0 1] 4)
     (by decide) (by decide)⟩

/-- C10: termination of the diff scan.  Each iteration either jumps
`window_begin` to `window_end` (at least one byte forward, since the window
is non-empty when bytes remain and B ≥ 1) or slides it forward by one, so
the scan runs at most `|BASE| - window_begin + 1` iterations: any two
sufficient iteration budgets produce the same result. -/
theorem claim_C10_scan_termination (input : Bytes) (ws : List Nat) (keys : List Bytes)
    (bs : Nat) (hbs : 1 ≤ bs) (fuel1 fuel2 : Nat) (rh : RollingHash) (wb : Nat)
    (acc : List (Bytes × Nat)) (h1 : input.length - wb < fuel1)
    (h2 : input.length - wb < fuel2) :
    scanGo input ws keys bs fuel1 rh wb acc = scanGo input ws keys bs fuel2 rh wb acc :=
  scanGo_fuel input ws keys bs hbs fuel1 fuel2 rh wb acc h1 h2

/-- Witness for C10 at a concrete scan state. -/
theorem claim_C10_scan_termination_witness :
    1 ≤ 1 ∧ ([97, 98] : Bytes).length - 0 < 3 ∧ ([97, 98] : Bytes).length - 0 < 7 ∧
    scanGo [97, 98] [] [] 1 3 RollingHash.new 0 []
      = scanGo [97, 98] [] [] 1 7 RollingHash.new 0 [] :=
  ⟨by decide, by decide, by decide,
   claim_C10_scan_termination [97, 98] [] [] 1 (by decide) 3 7 RollingHash.new 0 []
     (by decide) (by decide)⟩
